import Mathlib

/-!
Verification development for the receipt-extraction scripts
(`extract_receipt.py`, `process_receipts.py`).

The Python functions are shallowly embedded over `List Char` / `String`.
Regular-expression scans are hand-translated, pattern by pattern, into
explicit matchers that follow Python `re` semantics (leftmost scan,
greedy quantifiers with backtracking, non-overlapping `findall`/`sub`).
Character classes are modelled at ASCII precision (the receipts operated
on are ASCII); Python's `str` classes additionally accept some Unicode
characters, which no theorem below depends on.
-/

namespace Receipt

/-! ## Character classes (ASCII models of Python's regex classes) -/

/-- Model of the regex class `\d` (ASCII digits). -/
def isDig (c : Char) : Bool := c.isDigit

/-- Model of the regex class `\s` (ASCII whitespace, including `\x0b`/`\x0c`). -/
def isPyWS (c : Char) : Bool :=
  c = ' ' || c = '\t' || c = '\n' || c = '\x0d' || c = '\x0b' || c = '\x0c'

/-- Model of the regex class `[a-zA-Z]`. -/
def isAsciiAlpha (c : Char) : Bool :=
  ('a' ≤ c && c ≤ 'z') || ('A' ≤ c && c ≤ 'Z')

/-- Model of the regex class `\w` (ASCII word characters). -/
def isWordC (c : Char) : Bool := isAsciiAlpha c || isDig c || c = '_'

/-- ASCII lower-casing, as Python `str.lower` acts on ASCII. -/
def lowC (c : Char) : Char := c.toLower

/-! ## Basic string utilities shared by the embeddings -/

/-- Maximal run of characters satisfying `p` at the front: `(run, rest)`. -/
def spanP (p : Char → Bool) (cs : List Char) : List Char × List Char :=
  (cs.takeWhile p, cs.dropWhile p)

/-- Removes the trailing run of characters satisfying `p`. -/
def dropEndWhile (p : Char → Bool) : List Char → List Char
  | [] => []
  | c :: cs =>
    let r := dropEndWhile p cs
    if r = [] && p c then [] else c :: r

/-- Python `str.strip()` (ASCII whitespace model). -/
def pyStrip (cs : List Char) : List Char :=
  dropEndWhile isPyWS (cs.dropWhile isPyWS)

/-- Python `str.split(sep)` for a one-character separator (keeps empty parts). -/
def splitOnChar (sep : Char) : List Char → List (List Char)
  | [] => [[]]
  | c :: cs =>
    if c = sep then [] :: splitOnChar sep cs
    else
      match splitOnChar sep cs with
      | [] => [[c]]
      | p :: ps => (c :: p) :: ps

/-- Worker for `pyWords`: `cur` is the current word, reversed. -/
def pyWordsGo (cur : List Char) : List Char → List (List Char)
  | [] => if cur = [] then [] else [cur.reverse]
  | c :: cs =>
    if isPyWS c then
      if cur = [] then pyWordsGo [] cs else cur.reverse :: pyWordsGo [] cs
    else pyWordsGo (c :: cur) cs

/-- Python `str.split()` with no argument: whitespace-separated words, no empties. -/
def pyWords (cs : List Char) : List (List Char) := pyWordsGo [] cs

/-- Rejoin words with single spaces (`' '.join(words)`). -/
def joinSpace : List (List Char) → List Char
  | [] => []
  | [w] => w
  | w :: ws => w ++ ' ' :: joinSpace ws

/-- Numeric value of a digit list (most significant first). -/
def digitsToNat (cs : List Char) : Nat :=
  cs.foldl (fun a c => a * 10 + (c.toNat - 48)) 0

/-- Ordered choice over a list of quantifier lengths: the regex engine
tries the alternatives in this order and keeps the first that lets the
whole continuation succeed. -/
def firstSomeN {α : Type} : List Nat → (Nat → Option α) → Option α
  | [], _ => none
  | n :: ns, f =>
    match f n with
    | some a => some a
    | none => firstSomeN ns f

/-- Exactly `n` characters satisfying `p`: `(taken, rest)`. -/
def takeExact (p : Char → Bool) : Nat → List Char → Option (List Char × List Char)
  | 0, cs => some ([], cs)
  | _ + 1, [] => none
  | n + 1, c :: cs =>
    if p c then
      match takeExact p n cs with
      | some (t, r) => some (c :: t, r)
      | none => none
    else none

/-- Case-insensitive literal match at the front: returns the rest. -/
def matchCI : List Char → List Char → Option (List Char)
  | [], cs => some cs
  | _ :: _, [] => none
  | p :: ps, c :: cs => if lowC c = lowC p then matchCI ps cs else none

/-- Ordered alternation of case-insensitive literals: the first literal
of the list that matches wins (Python tries regex alternatives left to
right). Returns `(literal, rest)`. -/
def matchCIAlt : List (List Char) → List Char → Option (List Char × List Char)
  | [], _ => none
  | w :: ws, cs =>
    match matchCI w cs with
    | some r => some (w, r)
    | none => matchCIAlt ws cs

/-! ## Generic scan combinators (Python `re.findall` / `re.search` / `re.sub`)

A matcher has type `List Char → Option (α × List Char)`: applied at a
position (a suffix of the text) it returns the payload of the match
starting there plus the rest of the text after the match, or `none`.
Matchers that need the word-boundary context additionally receive the
previous character. All matchers below consume at least one character
when they succeed, so a fuel of `length + 1` is enough for the
non-overlapping scans. -/

/-- All non-overlapping matches, leftmost first (`re.findall`). -/
def findAllGo {α : Type} (m : List Char → Option (α × List Char)) :
    Nat → List Char → List α
  | 0, _ => []
  | _ + 1, [] => []
  | fuel + 1, c :: cs =>
    match m (c :: cs) with
    | some (a, rest) => a :: findAllGo m fuel rest
    | none => findAllGo m fuel cs

def findAll {α : Type} (m : List Char → Option (α × List Char)) (cs : List Char) : List α :=
  findAllGo m (cs.length + 1) cs

/-- First match, scanning left to right (`re.search`, payload only). -/
def firstMatch {α : Type} (m : List Char → Option (α × List Char)) : List Char → Option α
  | [] => (m []).map Prod.fst
  | c :: cs =>
    match m (c :: cs) with
    | some (a, _) => some a
    | none => firstMatch m cs

/-- Existence of a match at any position (`re.search` as a test). -/
def searchB (m : List Char → Option (Char × List Char)) (cs : List Char) : Bool :=
  (firstMatch m cs).isSome

/-! ## The amount extractor (`extract_receipt.extract_amount`, lines 352-388)

Pattern families, as in the source:
  A: `(?:total|amount|due|balance|charge)[:\s]*\$?\s*(\d+\.?\d{0,2})`
  B: `\$\s*(\d+\.?\d{0,2})`
  C: `(?:total|amount|due|balance|charge)[:\s]*\$?\s*(\d+[,\.]\d{0,2})`
  fallback: `\$(\d+\.?\d{0,2})`
All searches use `re.IGNORECASE`. -/

/-- up to two digits, greedily (`\d{0,2}`). -/
def upTo2Dig : List Char → List Char × List Char
  | a :: b :: r =>
    if isDig a then
      if isDig b then ([a, b], r) else ([a], b :: r)
    else ([], a :: b :: r)
  | [a] => if isDig a then ([a], []) else ([], [a])
  | [] => ([], [])

/-- Group `\d+\.?\d{0,2}`: a digit run, optionally a dot and up to two
more digits. The quantifiers are greedy and nothing after them forces
backtracking, so the maximal-munch reading is exact. -/
def amtGroup (cs : List Char) : Option (List Char × List Char) :=
  if cs.takeWhile isDig = [] then none
  else
    match cs.dropWhile isDig with
    | '.' :: r2 => some (cs.takeWhile isDig ++ '.' :: (upTo2Dig r2).1, (upTo2Dig r2).2)
    | r1 => some (cs.takeWhile isDig, r1)

/-- Group `\d+[,\.]\d{0,2}`: a digit run, a mandatory comma or dot, up to
two more digits (pattern family C). A shorter digit run cannot rescue a
missing separator (the separator would have to match a digit), so the
maximal run is exact here as well. -/
def amtGroupComma (cs : List Char) : Option (List Char × List Char) :=
  if cs.takeWhile isDig = [] then none
  else
    match cs.dropWhile isDig with
    | c :: r2 =>
      if c = ',' || c = '.' then some (cs.takeWhile isDig ++ c :: (upTo2Dig r2).1, (upTo2Dig r2).2)
      else none
    | [] => none

/-- The keyword alternation `(?:total|amount|due|balance|charge)`. -/
def amountKeywords : List (List Char) :=
  [['t','o','t','a','l'], ['a','m','o','u','n','t'], ['d','u','e'],
   ['b','a','l','a','n','c','e'], ['c','h','a','r','g','e']]

/-- After a keyword: `[:\s]*\$?\s*` followed by the group `g`. Greedy
munching is exact: giving back a separator character can never expose a
digit. -/
def keywordTail (g : List Char → Option (List Char × List Char)) (cs : List Char) :
    Option (List Char × List Char) :=
  let r1 := cs.dropWhile (fun c => c = ':' || isPyWS c)
  let r2 := match r1 with
    | '$' :: r => r
    | _ => r1
  g (r2.dropWhile isPyWS)

/-- Matcher for family A at a position. -/
def matchAmtA (cs : List Char) : Option (List Char × List Char) :=
  match matchCIAlt amountKeywords cs with
  | some (_, r) => keywordTail amtGroup r
  | none => none

/-- Matcher for family B (`\$\s*(\d+\.?\d{0,2})`) at a position. -/
def matchAmtB (cs : List Char) : Option (List Char × List Char) :=
  match cs with
  | '$' :: r => amtGroup (r.dropWhile isPyWS)
  | _ => none

/-- Matcher for family C at a position. -/
def matchAmtC (cs : List Char) : Option (List Char × List Char) :=
  match matchCIAlt amountKeywords cs with
  | some (_, r) => keywordTail amtGroupComma r
  | none => none

/-- Matcher for the fallback pattern `\$(\d+\.?\d{0,2})` at a position. -/
def matchAmtFallback (cs : List Char) : Option (List Char × List Char) :=
  match cs with
  | '$' :: r => amtGroup r
  | _ => none

/-- Exact decimal value of a candidate string shaped
`digits (.digits{0,2})?`, in hundredths: the candidate strings the three
families can produce (after `.replace(',', '')`) have at most two
decimals, so the string denotes exactly this many hundredths. The value
Python actually compares is `float(...)` of the string, modelled below
by `dblOfCents`. -/
def centsVal (cs : List Char) : Nat :=
  let (ds, r1) := spanP isDig cs
  match r1 with
  | '.' :: r2 =>
    let fs := (spanP isDig r2).1
    digitsToNat ds * 100 +
      (match fs with
       | [] => 0
       | [a] => (a.toNat - 48) * 10
       | a :: b :: _ => (a.toNat - 48) * 10 + (b.toNat - 48))
  | _ => digitsToNat ds * 100

/-- Bit length of `n` (`0` for `0`), by structural fuel: the argument
halves each step, so `n + 1` steps always suffice. -/
def bitLenGo : Nat → Nat → Nat
  | 0, _ => 0
  | fuel + 1, n => if n = 0 then 0 else bitLenGo fuel (n / 2) + 1

def bitLen (n : Nat) : Nat := bitLenGo (n + 1) n

/-- Round-half-to-even of the fraction `a / b` (`b > 0`): the rounding
mode of IEEE-754 binary64, which CPython `float(...)` applies to the
exact decimal value of the parsed string. -/
def rhe (a b : Nat) : Nat :=
  let q := a / b
  let r := a % b
  if b < 2 * r then q + 1
  else if 2 * r < b then q
  else if q % 2 = 0 then q else q + 1

/-- Floor of `n * 2^k / 100` for an integer shift `k` (a negative `k`
divides). -/
def floorScaled (n : Nat) (k : Int) : Nat :=
  if 0 ≤ k then n * 2 ^ k.toNat / 100 else n / (100 * 2 ^ (-k).toNat)

/-- Round-half-even of `n * 2^k / 100` for an integer shift `k`. -/
def mantScaled (n : Nat) (k : Int) : Nat :=
  if 0 ≤ k then rhe (n * 2 ^ k.toNat) 100 else rhe n (100 * 2 ^ (-k).toNat)

/-- CPython `float(s)` on a candidate string worth `n` hundredths: the
IEEE-754 binary64 nearest-even rounding of `n / 100`, as `some (m, k)`
of value `m * 2^(-k)`, or `none` for an overflow to `inf`. For `n > 0`
the shift `k` is chosen so that `n / 100 * 2^k` lands in
`[2^52, 2^53)` — with `L` the bit length of `n`, `n / 100` lies in
`(2^(L-8), 2^(L-6))`, so `k` is `60 - L` or `59 - L`, the former
exactly when its floor stays below `2^53`. The 53-bit significand is
the half-even rounding at that scale; a carry to `2^53` renormalizes,
and a binade exponent above `1023` overflows to `inf` (CPython returns
`inf` for an overflowing literal, and `inf` compares equal to `inf`).
Values of receipts never reach the subnormal range (`n ≥ 1` gives
`n / 100 ≥ 2^-7`). -/
def dblOfCents (n : Nat) : Option (Nat × Int) :=
  if n = 0 then some (0, 0)
  else
    let L : Int := (bitLen n : Int)
    let k0 : Int := 60 - L
    let k1 : Int := if 2 ^ 53 ≤ floorScaled n k0 then k0 - 1 else k0
    let m1 : Nat := mantScaled n k1
    let m2 : Nat := if m1 = 2 ^ 53 then 2 ^ 52 else m1
    let k2 : Int := if m1 = 2 ^ 53 then k1 - 1 else k1
    if 1023 < 52 - k2 then none else some (m2, k2)

/-- Strict comparison of two modelled doubles (`none` is `inf`): the
value `m1 * 2^(-k1)` is below `m2 * 2^(-k2)` exactly when the
cross-shifted significands compare, and every finite value is below
`inf`. -/
def dblLtB : Option (Nat × Int) → Option (Nat × Int) → Bool
  | none, _ => false
  | some _, none => true
  | some (m1, k1), some (m2, k2) =>
    if k1 ≤ k2 then decide (m1 * 2 ^ (k2 - k1).toNat < m2)
    else decide (m1 < m2 * 2 ^ (k1 - k2).toNat)

/-- The rational value of a modelled finite double (`m * 2^(-k)`), the
interpretation the comparison lemmas reason in. -/
def qval (p : Nat × Int) : ℚ := (p.1 : ℚ) * (2 : ℚ) ^ (-p.2)

/-- One collected candidate: `(exact value in hundredths, amount_str)`,
where `amount_str` is the matched group with commas removed
(`match.replace(',', '')`). The float Python stores beside the string is
a function of the exact value (`dblOfCents`), applied where the floats
are compared. -/
def mkCandidate (g : List Char) : Nat × List Char :=
  let s := g.filter (fun c => c ≠ ',')
  (centsVal s, s)

/-- The `all_amounts` list of `extract_amount`: every match of the three
pattern families in pattern order, then match order. -/
def amount_candidates (text : String) : List (Nat × List Char) :=
  let t := text.toList
  (findAll matchAmtA t ++ findAll matchAmtB t ++ findAll matchAmtC t).map mkCandidate

/-- Python `max(xs, key=lambda x: x[0])` keeps the first maximal
element: fold that replaces the current best only on a strictly larger
key, the keys being the floats `dblOfCents` models. -/
def pickMax : List (Nat × List Char) → (Nat × List Char) → Nat × List Char
  | [], best => best
  | x :: xs, best =>
    pickMax xs (if dblLtB (dblOfCents best.1) (dblOfCents x.1) then x else best)

/-- Two-decimal rendering of a value in hundredths (`f"{x:.2f}"` on the
exactly-representable fallback values). -/
def format2 (n : Nat) : List Char :=
  (Nat.toDigits 10 (n / 100)) ++ '.' :: [Nat.digitChar (n % 100 / 10), Nat.digitChar (n % 10)]

/-- Model of `extract_receipt.extract_amount` (lines 352-388). -/
def extract_amount (text : String) : Option String :=
  match amount_candidates text with
  | a :: rest => some (String.mk ('$' :: (pickMax rest a).2))
  | [] =>
    match findAll matchAmtFallback text.toList with
    | [] => none
    | m :: rest =>
      some (String.mk ('$' :: format2 ((rest.map (fun g => centsVal (g.filter (fun c => c ≠ ',')))).foldl
        Nat.max (centsVal (m.filter (fun c => c ≠ ','))))))

/-- Shape `\d+(\.\d{0,2})?` consuming the whole list. -/
def listAmtShape (l : List Char) : Bool :=
  !(l.takeWhile isDig).isEmpty &&
    (match l.dropWhile isDig with
     | [] => true
     | '.' :: r2 => decide ((r2.takeWhile isDig).length ≤ 2) && (r2.dropWhile isDig).isEmpty
     | _ => false)

/-- The amount-shape regex of the spec, `^\$\d+(\.\d{1,2})?$`. This is
the specification's predicate, written from the spec's words, to compare
with what the code produces. -/
def amountShapeSpec (s : String) : Bool :=
  match s.toList with
  | '$' :: rest =>
    let (ds, r1) := spanP isDig rest
    !ds.isEmpty &&
      (match r1 with
       | [] => true
       | '.' :: r2 =>
         let (fs, r3) := spanP isDig r2
         decide (fs.length = 1 ∨ fs.length = 2) && r3.isEmpty
       | _ => false)
  | _ => false

/-- The relaxed shape `^\$\d+(\.\d{0,2})?$` that the code actually
guarantees (the fractional digits may be absent after the dot). -/
def amountShapeRelaxed (s : String) : Bool :=
  match s.toList with
  | '$' :: rest => listAmtShape rest
  | _ => false

/-! ## Filename sanitization (`process_receipts.sanitize_filename`, lines 31-65) -/

/-- The filesystem-invalid characters replaced by `_`: the regex class
written in the source as slash, backslash, colon, star, question mark,
double quote, angle brackets and pipe. -/
def invalidFileChar (c : Char) : Bool :=
  c = '/' || c = '\\' || c = ':' || c = '*' || c = '?' || c = '"' ||
  c = '<' || c = '>' || c = '|'

/-- The class `[_\s]` collapsed to a single underscore. -/
def isUW (c : Char) : Bool := c = '_' || isPyWS c

/-- Worker for the substitution `re.sub(r'[_\s]+', '_', s)`: `inRun`
records that the current run has already emitted its underscore. -/
def collapseAux : Bool → List Char → List Char
  | _, [] => []
  | inRun, c :: cs =>
    if isUW c then
      if inRun then collapseAux true cs else '_' :: collapseAux true cs
    else c :: collapseAux false cs

def collapseUnders (cs : List Char) : List Char := collapseAux false cs

/-- The characters Python `str.strip('_.')` removes from both ends. -/
def isUD (c : Char) : Bool := c = '_' || c = '.'

/-- Python `str.strip('_.')`. -/
def stripUD (cs : List Char) : List Char :=
  dropEndWhile isUD (cs.dropWhile isUD)

/-- Model of `process_receipts.sanitize_filename` with the default
`max_length = 50` (every call in the repository uses the default). -/
def sanitize_filename (text : String) : String :=
  if text = "" then "unknown"
  else
    let s1 := text.toList.map (fun c => if invalidFileChar c then '_' else c)
    let s2 := collapseUnders s1
    let s3 := stripUD s2
    let s4 := if s3.length > 50 then s3.take 50 else s3
    if s4 = [] then "unknown" else String.mk s4

/-! ## The date extractor (`extract_receipt.extract_date`, lines 278-349)

The four shape patterns, in source priority order:
  1. `\d{1,2}(/|-)\d{1,2}(/|-)\d{2,4}`
  2. `\d{4}(/|-)\d{1,2}(/|-)\d{1,2}`
  3. `\w+\s+\d{1,2},?\s+\d{4}`
  4. `\d{1,2}\s+\w+\s+\d{4}`
`re.findall(p, text)` is non-empty exactly when a first (leftmost) match
exists, and `matches[0]` is that leftmost match, so only the first match
of each pattern is modelled. -/

def isSepSD (c : Char) : Bool := c = '/' || c = '-'

/-- One character satisfying `p`. -/
def takeIf (p : Char → Bool) : List Char → Option (Char × List Char)
  | c :: cs => if p c then some (c, cs) else none
  | [] => none

/-- Non-empty maximal run of characters satisfying `p` (the `+`
quantifier; maximal munch is exact whenever the following regex element
cannot match a `p`-character, which holds at every use below). -/
def takeRun1 (p : Char → Bool) (cs : List Char) : Option (List Char × List Char) :=
  let (r, rest) := spanP p cs
  if r = [] then none else some (r, rest)

/-- Pattern 1 at a position. -/
def matchD1 (cs : List Char) : Option (List Char × List Char) :=
  firstSomeN [2, 1] fun a => do
    let (d1, r1) ← takeExact isDig a cs
    let (s1, r2) ← takeIf isSepSD r1
    firstSomeN [2, 1] fun b => do
      let (d2, r3) ← takeExact isDig b r2
      let (s2, r4) ← takeIf isSepSD r3
      firstSomeN [4, 3, 2] fun n => do
        let (d3, r5) ← takeExact isDig n r4
        pure (d1 ++ s1 :: d2 ++ s2 :: d3, r5)

/-- Pattern 2 at a position. -/
def matchD2 (cs : List Char) : Option (List Char × List Char) := do
  let (d1, r1) ← takeExact isDig 4 cs
  let (s1, r2) ← takeIf isSepSD r1
  firstSomeN [2, 1] fun b => do
    let (d2, r3) ← takeExact isDig b r2
    let (s2, r4) ← takeIf isSepSD r3
    firstSomeN [2, 1] fun n => do
      let (d3, r5) ← takeExact isDig n r4
      pure (d1 ++ s1 :: d2 ++ s2 :: d3, r5)

/-- Pattern 3 at a position (`\w+\s+\d{1,2},?\s+\d{4}`). The optional
comma is consumed when present: skipping it could only help if `\s+`
matched a comma, which it does not. -/
def matchD3 (cs : List Char) : Option (List Char × List Char) := do
  let (w, r1) ← takeRun1 isWordC cs
  let (ws1, r2) ← takeRun1 isPyWS r1
  firstSomeN [2, 1] fun b => do
    let (d, r3) ← takeExact isDig b r2
    let (cm, r4) := match r3 with
      | ',' :: r => ([','], r)
      | _ => (([] : List Char), r3)
    let (ws2, r5) ← takeRun1 isPyWS r4
    let (y, r6) ← takeExact isDig 4 r5
    pure (w ++ ws1 ++ d ++ cm ++ ws2 ++ y, r6)

/-- Pattern 4 at a position (`\d{1,2}\s+\w+\s+\d{4}`). -/
def matchD4 (cs : List Char) : Option (List Char × List Char) :=
  firstSomeN [2, 1] fun a => do
    let (d, r1) ← takeExact isDig a cs
    let (ws1, r2) ← takeRun1 isPyWS r1
    let (w, r3) ← takeRun1 isWordC r2
    let (ws2, r4) ← takeRun1 isPyWS r3
    let (y, r5) ← takeExact isDig 4 r4
    pure (d ++ ws1 ++ w ++ ws2 ++ y, r5)

/-! ### `datetime.strptime` models for the formats the source tries

CPython's `_strptime` compiles `%m` to `1[0-2]|0[1-9]|[1-9]`, `%d` to
`3[01]|[12]\d|0[1-9]|[1-9]`, `%Y` to exactly four digits, `%y` to exactly
two digits (value at most 68 mapped to 20xx, else 19xx), `%B`/`%b` to the English
month-name alternation, a space in the format to `\s+`, and requires the
whole string to be consumed; `datetime(...)` then validates the year
(≥ 1) and the day against the month length. -/

/-- Component acceptance of `%m` (the component must be consumed whole:
a leftover character would have to match the following literal
separator, and it is a digit, so it cannot). -/
def fieldM (p : List Char) : Option Nat :=
  match p with
  | [c] => if '1' ≤ c && c ≤ '9' then some (c.toNat - 48) else none
  | [a, b] =>
    if (a = '0' && ('1' ≤ b && b ≤ '9')) || (a = '1' && ('0' ≤ b && b ≤ '2')) then
      some (digitsToNat [a, b])
    else none
  | _ => none

/-- Component acceptance of `%d`. -/
def fieldD (p : List Char) : Option Nat :=
  match p with
  | [c] => if '1' ≤ c && c ≤ '9' then some (c.toNat - 48) else none
  | [a, b] =>
    if (a = '0' && ('1' ≤ b && b ≤ '9')) || ((a = '1' || a = '2') && isDig b) ||
        (a = '3' && (b = '0' || b = '1')) then
      some (digitsToNat [a, b])
    else none
  | _ => none

/-- Component acceptance of `%Y` plus the `datetime` year lower bound. -/
def fieldY4 (p : List Char) : Option Nat :=
  if p.length = 4 && p.all isDig then
    let v := digitsToNat p
    if 1 ≤ v then some v else none
  else none

/-- Component acceptance of `%y` with CPython's century mapping. -/
def fieldY2 (p : List Char) : Option Nat :=
  match p with
  | [a, b] =>
    if isDig a && isDig b then
      let v := digitsToNat [a, b]
      some (if v ≤ 68 then 2000 + v else 1900 + v)
    else none
  | _ => none

def isLeap (y : Nat) : Bool := (y % 4 = 0 && y % 100 ≠ 0) || y % 400 = 0

def daysInMonth (y m : Nat) : Nat :=
  if m = 2 then (if isLeap y then 29 else 28)
  else if m = 4 || m = 6 || m = 9 || m = 11 then 30
  else 31

/-- The `datetime(year, month, day)` day-of-month validation. -/
def mkDate (y m d : Nat) : Option (Nat × Nat × Nat) :=
  if d ≤ daysInMonth y m then some (y, m, d) else none

/-- Split at every `/` or `-` (`re.split(r'(/|-)', s)`). -/
def splitSeps : List Char → List (List Char)
  | [] => [[]]
  | c :: cs =>
    if isSepSD c then [] :: splitSeps cs
    else
      match splitSeps cs with
      | [] => [[c]]
      | p :: ps => (c :: p) :: ps

/-- `strptime` with format `%Y<sep>%m<sep>%d`. -/
def strpNumYMD (sep : Char) (s : List Char) : Option (Nat × Nat × Nat) :=
  match splitOnChar sep s with
  | [p1, p2, p3] => do
    let y ← fieldY4 p1
    let m ← fieldM p2
    let d ← fieldD p3
    mkDate y m d
  | _ => none

/-- `strptime` with format `%m<sep>%d<sep>%Y` (or `%y` when `year4` is false). -/
def strpNumMDY (year4 : Bool) (sep : Char) (s : List Char) : Option (Nat × Nat × Nat) :=
  match splitOnChar sep s with
  | [p1, p2, p3] => do
    let m ← fieldM p1
    let d ← fieldD p2
    let y ← (if year4 then fieldY4 p3 else fieldY2 p3)
    mkDate y m d
  | _ => none

/-- `strptime` with format `%d<sep>%m<sep>%Y` (or `%y` when `year4` is false). -/
def strpNumDMY (year4 : Bool) (sep : Char) (s : List Char) : Option (Nat × Nat × Nat) :=
  match splitOnChar sep s with
  | [p1, p2, p3] => do
    let d ← fieldD p1
    let m ← fieldM p2
    let y ← (if year4 then fieldY4 p3 else fieldY2 p3)
    mkDate y m d
  | _ => none

/-- English month names for `%B` (case-insensitive; the list is
prefix-free, so alternation order does not matter). -/
def monthsFull : List (List Char × Nat) :=
  [("january".toList, 1), ("february".toList, 2), ("march".toList, 3),
   ("april".toList, 4), ("may".toList, 5), ("june".toList, 6),
   ("july".toList, 7), ("august".toList, 8), ("september".toList, 9),
   ("october".toList, 10), ("november".toList, 11), ("december".toList, 12)]

/-- English month abbreviations for `%b`. -/
def monthsAbbr : List (List Char × Nat) :=
  [("jan".toList, 1), ("feb".toList, 2), ("mar".toList, 3), ("apr".toList, 4),
   ("may".toList, 5), ("jun".toList, 6), ("jul".toList, 7), ("aug".toList, 8),
   ("sep".toList, 9), ("oct".toList, 10), ("nov".toList, 11), ("dec".toList, 12)]

def matchMonth : List (List Char × Nat) → List Char → Option (Nat × List Char)
  | [], _ => none
  | (nm, v) :: tl, cs =>
    match matchCI nm cs with
    | some r => some (v, r)
    | none => matchMonth tl cs

/-- `strptime` with format `%B %d, %Y` / `%B %d %Y` (and the `%b`
variants via the table argument). The two-digit `%d` alternatives are
tried before the one-digit one, with full backtracking into the
continuation, exactly as the compiled regex does. -/
def strpMonthFirst (tbl : List (List Char × Nat)) (comma : Bool) (s : List Char) :
    Option (Nat × Nat × Nat) := do
  let (m, r1) ← matchMonth tbl s
  let (_, r2) ← takeRun1 isPyWS r1
  firstSomeN [2, 1] fun k => do
    let (dp, r3) ← takeExact isDig k r2
    let d ← fieldD dp
    let r4 ← (if comma then
        match r3 with
        | ',' :: r => some r
        | _ => none
      else some r3)
    let (_, r5) ← takeRun1 isPyWS r4
    let (yp, r6) ← takeExact isDig 4 r5
    let y ← fieldY4 yp
    if r6 = [] then mkDate y m d else none

/-- `strptime` with format `%d %B %Y` (and `%d %b %Y` via the table).
In the source this hypothesis lives in the block at lines 333-340, which
is unreachable: the preceding month-first chain either succeeds or
raises out of the enclosing `try` (the line-330 attempt is unguarded).
It is modelled here to state what the dead code would have produced. -/
def strpDayFirst (tbl : List (List Char × Nat)) (s : List Char) :
    Option (Nat × Nat × Nat) :=
  firstSomeN [2, 1] fun k => do
    let (dp, r1) ← takeExact isDig k s
    let d ← fieldD dp
    let (_, r2) ← takeRun1 isPyWS r1
    let (m, r3) ← matchMonth tbl r2
    let (_, r4) ← takeRun1 isPyWS r3
    let (yp, r5) ← takeExact isDig 4 r4
    let y ← fieldY4 yp
    if r5 = [] then mkDate y m d else none

/-- The month-name hypothesis chain (source lines 320-330): `%B %d, %Y`,
`%B %d %Y`, `%b %d, %Y`, `%b %d %Y`. The last attempt is not wrapped in
`try/except`, so when it fails the ValueError escapes to the outer
handler and the pattern loop moves to the next pattern — for the caller
that is indistinguishable from producing no date, so `none` models both;
in particular the day-first block (lines 333-340) never runs. -/
def monthNameChain (s : List Char) : Option (Nat × Nat × Nat) :=
  match strpMonthFirst monthsFull true s with
  | some d => some d
  | none =>
    match strpMonthFirst monthsFull false s with
    | some d => some d
    | none =>
      match strpMonthFirst monthsAbbr true s with
      | some d => some d
      | none => strpMonthFirst monthsAbbr false s

/-- Model of the per-token parse block of `extract_date` (lines 293-344).
`none` covers both "no hypothesis parsed" and "a ValueError escaped";
either way the caller continues with the next pattern. -/
def parse_date_token (s : List Char) : Option (Nat × Nat × Nat) :=
  if s.contains '/' || s.contains '-' then
    let parts := splitSeps s
    if parts.length = 3 then
      let sep := if s.contains '/' then '/' else '-'
      if (parts.headD []).length = 4 then
        strpNumYMD sep s
      else
        match strpNumMDY true sep s with
        | some d => some d
        | none =>
          match strpNumDMY true sep s with
          | some d => some d
          | none =>
            match strpNumMDY false sep s with
            | some d => some d
            | none => strpNumDMY false sep s
    else monthNameChain s
  else monthNameChain s

/-- Digits of `n`, zero-padded on the left to width `k`. -/
def padNum (k n : Nat) : List Char :=
  let ds := Nat.toDigits 10 n
  List.replicate (k - ds.length) '0' ++ ds

/-- `parsed_date.strftime('%Y-%m-%d')`. CPython delegates `%Y` to the C
library, which prints the year unpadded (a year below 1000 keeps its
natural width); `%m` and `%d` are zero-padded to two digits. -/
def formatISO (d : Nat × Nat × Nat) : String :=
  String.mk (Nat.toDigits 10 d.1 ++ '-' :: padNum 2 d.2.1 ++ '-' :: padNum 2 d.2.2)

/-- The four date patterns in priority order. -/
def datePatterns : List (List Char → Option (List Char × List Char)) :=
  [matchD1, matchD2, matchD3, matchD4]

/-- The pattern loop of `extract_date`: first pattern with a match wins;
its leftmost match is parsed; on parse failure the loop continues with
the next pattern (the `continue` of line 347). -/
def extract_date_go : List (List Char → Option (List Char × List Char)) →
    List Char → Option String
  | [], _ => none
  | p :: ps, t =>
    match firstMatch p t with
    | none => extract_date_go ps t
    | some tok =>
      match parse_date_token tok with
      | some d => some (formatISO d)
      | none => extract_date_go ps t

/-- Model of `extract_receipt.extract_date` (lines 278-349). -/
def extract_date (text : String) : Option String :=
  extract_date_go datePatterns text.toList

/-! ## The vendor extractor (`extract_receipt.extract_vendor`, lines 391-577)

Every `re.search` / `re.sub` the source performs is modelled by a
dedicated matcher. A matcher takes the text from the match position
(and, for the patterns that use `\b`, the previous character) and
returns the rest of the text after the match. -/

/-- Boundary test after a match that ends in a word character: the next
character must be absent or not a word character. -/
def nonWordHead : List Char → Bool
  | [] => true
  | c :: _ => !isWordC c

/-- At positions before a word character, `\b` holds exactly when the
previous character is absent or not a word character. -/
def wordBoundaryBefore : Option Char → Bool
  | none => true
  | some c => !isWordC c

/-- Scan all positions of a text for a positional test (used for the
`re.search` predicates; the previous character is threaded for `\b`). -/
def searchWithPrev (f : Option Char → List Char → Bool) : Option Char → List Char → Bool
  | prev, [] => f prev []
  | prev, c :: cs => f prev (c :: cs) || searchWithPrev f (some c) cs

/-- Scan all positions for a position test that needs no left context. -/
def anySuffix (f : List Char → Bool) : List Char → Bool
  | [] => f []
  | c :: cs => f (c :: cs) || anySuffix f cs

/-- Case-insensitive substring test. -/
def infixCI (pat : List Char) : List Char → Bool
  | [] => (matchCI pat []).isSome
  | c :: cs => (matchCI pat (c :: cs)).isSome || infixCI pat cs

/-- Case-sensitive literal match at the front: returns the rest. -/
def matchLit : List Char → List Char → Option (List Char)
  | [], cs => some cs
  | _ :: _, [] => none
  | p :: ps, c :: cs => if c = p then matchLit ps cs else none

/-- Plain substring test (Python `pat in s`). -/
def infixLit (pat : List Char) : List Char → Bool
  | [] => (matchLit pat []).isSome
  | c :: cs => (matchLit pat (c :: cs)).isSome || infixLit pat cs

/-- Phone pattern `\(?\d{3}\)?[-.\s]?\d{3}[-.\s]?\d{4}` at a position.
Each optional element is deterministic: skipping a present `(`, `)` or
separator would make the following digit class fail on that very
character. -/
def matchPhone (cs : List Char) : Option (Unit × List Char) := do
  let r0 := match cs with
    | '(' :: r => r
    | _ => cs
  let (_, r1) ← takeExact isDig 3 r0
  let r2 := match r1 with
    | ')' :: r => r
    | _ => r1
  let r3 := match r2 with
    | c :: r => if c = '-' || c = '.' || isPyWS c then r else r2
    | [] => r2
  let (_, r4) ← takeExact isDig 3 r3
  let r5 := match r4 with
    | c :: r => if c = '-' || c = '.' || isPyWS c then r else r4
    | [] => r4
  let (_, r6) ← takeExact isDig 4 r5
  pure ((), r6)

def phoneSearchT (l : List Char) : Bool := anySuffix (fun cs => (matchPhone cs).isSome) l

/-- The URL test of the skip rules:
`https?://|www\.|\.com|\.net|\.org|\.co\.` with `re.IGNORECASE` —
a pure substring test. -/
def urlSearchT (l : List Char) : Bool :=
  infixCI "http://".toList l || infixCI "https://".toList l ||
  infixCI "www.".toList l || infixCI ".com".toList l || infixCI ".net".toList l ||
  infixCI ".org".toList l || infixCI ".co.".toList l

/-- The character class `[a-zA-Z0-9.-]` of the email search pattern. -/
def emailClassC (c : Char) : Bool := isAsciiAlpha c || isDig c || c = '.' || c = '-'

/-- Looks for a dot followed by two letters, anywhere in the list. -/
def hasDotAA : List Char → Bool
  | '.' :: a :: b :: rest =>
    (isAsciiAlpha a && isAsciiAlpha b) || hasDotAA (a :: b :: rest)
  | _ :: rest => hasDotAA rest
  | [] => false

/-- Email search `@[a-zA-Z0-9.-]+\.[a-zA-Z]{2,}` at a position: after
the `@`, the maximal class run must contain a dot at index at least one
followed by two letters (the letters are class characters, so they lie
inside the run; the greedy `+` backtracks to any such dot). -/
def emailAt (cs : List Char) : Bool :=
  match cs with
  | '@' :: r =>
    match (spanP emailClassC r).1 with
    | _ :: runRest => hasDotAA runRest
    | [] => false
  | _ => false

def emailSearchT (l : List Char) : Bool := anySuffix emailAt l

/-- The postal-address keywords of the skip rule, in source order. -/
def addressKeywords : List (List Char) :=
  ["street".toList, "st".toList, "avenue".toList, "ave".toList, "road".toList,
   "rd".toList, "boulevard".toList, "blvd".toList, "drive".toList, "dr".toList,
   "lane".toList, "ln".toList, "way".toList, "court".toList, "ct".toList,
   "plaza".toList, "plz".toList, "suite".toList, "ste".toList, "unit".toList,
   "apt".toList, "apartment".toList]

/-- Keyword occurrence with a word boundary on both sides
(`\b(street|st|...)\b`, case-insensitive). -/
def addressSearchT (l : List Char) : Bool :=
  searchWithPrev
    (fun prev cs =>
      wordBoundaryBefore prev &&
        addressKeywords.any fun kw =>
          match matchCI kw cs with
          | some r => nonWordHead r
          | none => false)
    none l

/-- Zip pattern `\b\d{5}(-\d{4})?\b` at a position: returns the rest
after the match. When the `-\d{4}` group matches but the final boundary
fails, the engine backtracks to the group-less form, whose boundary (before
the dash) always holds. -/
def zipAt (prev : Option Char) (cs : List Char) : Option (List Char) :=
  if wordBoundaryBefore prev then
    match takeExact isDig 5 cs with
    | some (_, r) =>
      match r with
      | '-' :: r2 =>
        (match takeExact isDig 4 r2 with
         | some (_, r3) => if nonWordHead r3 then some r3 else some ('-' :: r2)
         | none => some ('-' :: r2))
      | _ => if nonWordHead r then some r else none
    | none => none
  else none

def zipSearchT (l : List Char) : Bool :=
  searchWithPrev (fun prev cs => (zipAt prev cs).isSome) none l

/-- The store-number keywords `(store|location|loc|#)`, in source order. -/
def storeKeywords : List (List Char) :=
  ["store".toList, "location".toList, "loc".toList, "#".toList]

/-- `\b` before a keyword: for the word keywords the previous character
must not be a word character; for `#` (not a word character) the
boundary holds only when the previous character is a word character. -/
def storeBoundary (prev : Option Char) (kw : List Char) : Bool :=
  match kw with
  | c :: _ =>
    if isWordC c then wordBoundaryBefore prev
    else
      match prev with
      | some p => isWordC p
      | none => false
  | [] => false

/-- Store pattern `\b(store|location|loc|#)\s*[:#]?\s*\d+` at a position
(case-insensitive). -/
def storeAt (prev : Option Char) (cs : List Char) : Bool :=
  storeKeywords.any fun kw =>
    storeBoundary prev kw &&
      (match matchCI kw cs with
       | some r =>
         let r1 := r.dropWhile isPyWS
         let r2 := match r1 with
           | c :: rr => if c = ':' || c = '#' then rr else r1
           | [] => r1
         match r2.dropWhile isPyWS with
         | c :: _ => isDig c
         | [] => false
       | none => false)

def storeSearchT (l : List Char) : Bool := searchWithPrev storeAt none l

/-- The short time shape `\d{1,2}:\d{2}` at a position. -/
def timeShortAt (cs : List Char) : Bool :=
  (firstSomeN [2, 1] fun k => do
    let (_, r1) ← takeExact isDig k cs
    let (_, r2) ← takeIf (fun c => c = ':') r1
    let (_, r3) ← takeExact isDig 2 r2
    pure r3).isSome

/-- The soft-skip date test `\d{1,2}(/|-)\d{1,2}(/|-)\d{2,4}|\d{1,2}:\d{2}`. -/
def dateTimeSearchT (l : List Char) : Bool :=
  anySuffix (fun cs => (matchD1 cs).isSome || timeShortAt cs) l

/-- The class `[\d,]`. -/
def digComma (c : Char) : Bool := isDig c || c = ','

/-- Currency shape `\$[\d,]+\.?\d{0,2}` at a position (also used as a
substitution pattern in the cleanup). -/
def matchDollarAmt (cs : List Char) : Option (Unit × List Char) :=
  match cs with
  | '$' :: r =>
    let (run, r1) := spanP digComma r
    if run = [] then none
    else
      match r1 with
      | '.' :: r2 => some ((), (upTo2Dig r2).2)
      | _ => some ((), r1)
  | _ => none

/-- After the digits of the trailing-dollar currency shape: `\s*\$`. -/
def wsThenDollar (cs : List Char) : Option (List Char) :=
  match cs.dropWhile isPyWS with
  | '$' :: r => some r
  | _ => none

/-- Currency shape `[\d,]+\.?\d{0,2}\s*\$` at a position. The class run
is maximal (a shorter run leaves a class character where only `\s*\$`
may follow); after a dot, the following digit run must have length at
most two, else every backtracking choice leaves a digit before the
required `\s*\$`. -/
def matchAmtDollarTail (cs : List Char) : Option (Unit × List Char) :=
  let (run, r1) := spanP digComma cs
  if run = [] then none
  else
    match r1 with
    | '.' :: r2 =>
      let (fs, r3) := spanP isDig r2
      if fs.length ≤ 2 then
        match wsThenDollar r3 with
        | some r4 => some ((), r4)
        | none => none
      else none
    | _ =>
      match wsThenDollar r1 with
      | some r4 => some ((), r4)
      | none => none

/-- The soft-skip currency test `\$[\d,]+\.?\d{0,2}|[\d,]+\.?\d{0,2}\s*\$`. -/
def currencySearchT (l : List Char) : Bool :=
  anySuffix (fun cs => (matchDollarAmt cs).isSome || (matchAmtDollarTail cs).isSome) l

/-- The class of `^[\d\s\-\/\.:]+$`. -/
def numericJunkC (c : Char) : Bool :=
  isDig c || isPyWS c || c = '-' || c = '/' || c = '.' || c = ':'

/-- `re.match(r'^[\d\s\-\/\.:]+$', s)` as a test: non-empty and all
characters in the class. -/
def mostlyNumericT (l : List Char) : Bool := !l.isEmpty && l.all numericJunkC

def hasAlphaT (l : List Char) : Bool := l.any isAsciiAlpha

/-- Hard-stop signals of the tier-1 accumulation loop, in check order
(phone, URL, email, address keyword, zip, store number). -/
def isHardStopLine (line : List Char) : Bool :=
  phoneSearchT line || urlSearchT line || emailSearchT line ||
  addressSearchT line || zipSearchT line || storeSearchT line

/-- Soft-skip signals of the tier-1 loop (a date or time, or a currency
amount). -/
def isSoftSkipLine (line : List Char) : Bool :=
  dateTimeSearchT line || currencySearchT line

/-- What the tier-1 loop body does with one (stripped) line: `stop`
models `break`, `skip` models `continue` (and the not-added case), `add`
models appending to `vendor_lines`. -/
inductive LineAction where
  | stop : LineAction
  | skip : LineAction
  | add : LineAction
deriving Repr, DecidableEq

/-- The per-line decision of the tier-1 accumulation loop (source lines
410-452), tests in source order. -/
def lineAction (line : List Char) : LineAction :=
  if line = [] then .skip
  else if phoneSearchT line then .stop
  else if urlSearchT line then .stop
  else if emailSearchT line then .stop
  else if addressSearchT line then .stop
  else if zipSearchT line then .stop
  else if storeSearchT line then .stop
  else if dateTimeSearchT line then .skip
  else if currencySearchT line then .skip
  else if mostlyNumericT line then .skip
  else if hasAlphaT line && decide (line.length > 2) then .add
  else .skip

/-- The tier-1 line-accumulation loop (source lines 408-456): hard-stop
signals `break`, soft-skip signals and junk `continue`, a plausible name
line is appended, and the loop `break`s once three lines are collected. -/
def vendorLinesGo : List (List Char) → List (List Char) → List (List Char)
  | [], acc => acc
  | l :: rest, acc =>
    match lineAction (pyStrip l) with
    | .stop => acc
    | .skip => vendorLinesGo rest acc
    | .add =>
      if (acc ++ [pyStrip l]).length ≥ 3 then acc ++ [pyStrip l]
      else vendorLinesGo rest (acc ++ [pyStrip l])

/-! ### The cleanup substitutions of tier 1 (source lines 464-511) -/

/-- Generic `re.sub(pattern, '', s)` driven by a positional matcher. -/
def subAllGo {α : Type} (m : List Char → Option (α × List Char)) :
    Nat → List Char → List Char
  | 0, cs => cs
  | _ + 1, [] => []
  | fuel + 1, c :: cs =>
    match m (c :: cs) with
    | some (_, rest) => subAllGo m fuel rest
    | none => c :: subAllGo m fuel cs

def subAll {α : Type} (m : List Char → Option (α × List Char)) (cs : List Char) : List Char :=
  subAllGo m (cs.length + 1) cs

/-- Generic `re.sub` threading the previous character (for `\b`). -/
def subAllPrevGo {α : Type} (m : Option Char → List Char → Option (α × List Char)) :
    Nat → Option Char → List Char → List Char
  | 0, _, cs => cs
  | _ + 1, _, [] => []
  | fuel + 1, prev, c :: cs =>
    match m prev (c :: cs) with
    | some (_, rest) =>
      let consumed := (c :: cs).length - rest.length
      subAllPrevGo m fuel ((c :: cs)[consumed - 1]?) rest
    | none => c :: subAllPrevGo m fuel (some c) cs

def subAllPrev {α : Type} (m : Option Char → List Char → Option (α × List Char))
    (cs : List Char) : List Char :=
  subAllPrevGo m (cs.length + 1) none cs

/-- Time shape `\d{1,2}:\d{2}(?::\d{2})?(?:\s*[AP]M)?` at a position
(case-insensitive). The optional seconds and meridiem groups are greedy
and nothing follows them, so taking them when present is exact. -/
def matchTimeFull (cs : List Char) : Option (Unit × List Char) :=
  firstSomeN [2, 1] fun k => do
    let (_, r1) ← takeExact isDig k cs
    let (_, r2) ← takeIf (fun c => c = ':') r1
    let (_, r3) ← takeExact isDig 2 r2
    let r4 := match r3 with
      | ':' :: rr =>
        (match takeExact isDig 2 rr with
         | some (_, r5) => r5
         | none => r3)
      | _ => r3
    let r6 := match r4.dropWhile isPyWS with
      | a :: b :: rest =>
        if (lowC a = 'a' || lowC a = 'p') && lowC b = 'm' then rest else r4
      | _ => r4
    pure ((), r6)

/-- The keyword list of the currency cleanup pattern
`(?:total|amount|due|balance|charge|tax|subtotal)`. -/
def vendorAmtKeywords : List (List Char) :=
  amountKeywords ++ ["tax".toList, "subtotal".toList]

/-- Cleanup pattern
`(?:total|...|tax|subtotal)[:\s]*\$?\s*[\d,]+\.?\d{0,2}` at a position. -/
def matchKwCurrency (cs : List Char) : Option (Unit × List Char) :=
  match matchCIAlt vendorAmtKeywords cs with
  | some (_, r) =>
    let r1 := r.dropWhile (fun c => c = ':' || isPyWS c)
    let r2 := match r1 with
      | '$' :: rr => rr
      | _ => r1
    let (run, r4) := spanP digComma (r2.dropWhile isPyWS)
    if run = [] then none
    else
      match r4 with
      | '.' :: r5 => some ((), (upTo2Dig r5).2)
      | _ => some ((), r4)
  | none => none

/-- Cleanup pattern `\d+\.\d{2}` at a position. -/
def matchDec2 (cs : List Char) : Option (Unit × List Char) := do
  let (_, r1) ← takeRun1 isDig cs
  let (_, r2) ← takeIf (fun c => c = '.') r1
  let (_, r3) ← takeExact isDig 2 r2
  pure ((), r3)

def nonWSC (c : Char) : Bool := !isPyWS c

/-- URL cleanup alternative `https?://[^\s]+`. -/
def matchUrlA (cs : List Char) : Option (Unit × List Char) :=
  match matchCI "http".toList cs with
  | some r =>
    let r1 := match r with
      | c :: rr => if lowC c = 's' then rr else r
      | [] => r
    match matchCI "://".toList r1 with
    | some r2 => do
      let (_, r3) ← takeRun1 nonWSC r2
      pure ((), r3)
    | none => none
  | none => none

/-- URL cleanup alternative `www\.[^\s]+`. -/
def matchUrlB (cs : List Char) : Option (Unit × List Char) :=
  match matchCI "www.".toList cs with
  | some r => do
    let (_, r1) ← takeRun1 nonWSC r
    pure ((), r1)
  | none => none

def tldList : List (List Char) :=
  ["com".toList, "net".toList, "org".toList, "co".toList]

/-- The `\.(com|net|org|co)\b` tail just after a dot: alternatives in
source order, each with its own boundary check; returns the rest after
the tld. -/
def tldAtRest : List (List Char) → List Char → Option (List Char)
  | [], _ => none
  | tld :: tl, r =>
    match matchCI tld r with
    | some rr => if nonWordHead rr then some rr else tldAtRest tl r
    | none => tldAtRest tl r

/-- Rest of the token after the tld of the latest matching split
(`[^\s]+` is greedy, so the engine commits to the longest prefix whose
following characters are a dot, a tld and a boundary). -/
def urlCScanGo : List Char → Option (List Char)
  | [] => none
  | '.' :: r =>
    (match urlCScanGo r with
     | some rr => some rr
     | none => tldAtRest tldList r)
  | _ :: r => urlCScanGo r

/-- URL cleanup alternative `[^\s]+\.(com|net|org|co)\b`: works on the
maximal non-whitespace token (the boundary after the tld is either a
token character or the whitespace/end after the token). -/
def matchUrlC (cs : List Char) : Option (Unit × List Char) :=
  let (tok, rest) := spanP nonWSC cs
  match tok with
  | _ :: tokRest =>
    match urlCScanGo tokRest with
    | some afterDot => some ((), afterDot ++ rest)
    | none => none
  | [] => none

/-- The URL cleanup pattern
`https?://[^\s]+|www\.[^\s]+|[^\s]+\.(com|net|org|co)\b`,
alternatives in source order. -/
def matchUrlSub (cs : List Char) : Option (Unit × List Char) :=
  match matchUrlA cs with
  | some r => some r
  | none =>
    match matchUrlB cs with
    | some r => some r
    | none => matchUrlC cs

/-- Email cleanup `[^\s]+@[^\s]+`: the whole maximal non-whitespace
token matches exactly when it has an interior `@`. -/
def matchEmailSub (cs : List Char) : Option (Unit × List Char) :=
  let (tok, rest) := spanP nonWSC cs
  if decide (3 ≤ tok.length) && ((tok.drop 1).dropLast).contains '@' then
    some ((), rest)
  else none

def matchZipSub (prev : Option Char) (cs : List Char) : Option (Unit × List Char) :=
  (zipAt prev cs).map (fun r => ((), r))

/-- The vendor stop-word list of the source. -/
def skipWords : List (List Char) :=
  ["receipt".toList, "invoice".toList, "transaction".toList, "date".toList,
   "time".toList, "total".toList, "amount".toList, "due".toList,
   "balance".toList, "charge".toList, "tax".toList, "subtotal".toList,
   "store".toList, "location".toList, "phone".toList, "tel".toList,
   "fax".toList, "email".toList, "web".toList]

/-- Characters trimmed by `^[^\w\s]+|[^\w\s]+$`. -/
def isPunctC (c : Char) : Bool := !isWordC c && !isPyWS c

def trimEnds (p : Char → Bool) (cs : List Char) : List Char :=
  dropEndWhile p (cs.dropWhile p)

/-- The tier-1 global cleanup (source lines 464-511): strip date/time
shapes, strip currency shapes, strip phones/URLs/emails/zips, drop
stop-word tokens, trim edge punctuation, collapse whitespace, and drop
purely numeric tokens. -/
def tier1Cleanup (v0 : List Char) : List Char :=
  let v1 := subAll matchD1 v0
  let v2 := subAll matchD2 v1
  let v3 := subAll matchD3 v2
  let v4 := subAll matchD4 v3
  let v5 := subAll matchTimeFull v4
  let v6 := subAll matchDollarAmt v5
  let v7 := subAll matchAmtDollarTail v6
  let v8 := subAll matchKwCurrency v7
  let v9 := subAll matchDec2 v8
  let v10 := subAll matchPhone v9
  let v11 := subAll matchUrlSub v10
  let v12 := subAll matchEmailSub v11
  let v13 := subAllPrev matchZipSub v12
  let v14 := joinSpace ((pyWords v13).filter (fun w => !skipWords.contains (w.map lowC)))
  let v15 := trimEnds isPunctC v14
  let v16 := joinSpace (pyWords v15)
  joinSpace ((pyWords v16).filter (fun w => !mostlyNumericT w))

/-- The final acceptance gate of tier 1 (source line 514): length above
two and at least one letter. -/
def vendorGate (v : List Char) : Option String :=
  if decide (2 < v.length) && hasAlphaT v then some (String.mk v) else none

/-- Tier 1 of `extract_vendor` (source lines 403-515). -/
def vendorFromLogo (logo_text : String) : Option String :=
  let lines := splitOnChar '\n' (pyStrip logo_text.toList)
  let vendor_lines := vendorLinesGo lines []
  let vendor0 := match vendor_lines with
    | [] => pyStrip (lines.headD [])
    | _ => joinSpace vendor_lines
  vendorGate (tier1Cleanup vendor0)

/-- The per-line cleanup of tier 2 (source lines 563-572): trim non-word
edges (this also trims whitespace: the class is `[^\w]`), collapse,
strip phones, URLs, emails and zips, collapse again. -/
def tier2Clean (line : List Char) : List Char :=
  let v1 := trimEnds (fun c => !isWordC c) line
  let v2 := joinSpace (pyWords v1)
  let v3 := subAll matchPhone v2
  let v4 := subAll matchUrlSub v3
  let v5 := subAll matchEmailSub v4
  let v6 := subAllPrev matchZipSub v5
  joinSpace (pyWords v6)

/-- The per-line outcome of tier 2 (source lines 522-575): every test
`continue`s on failure (none stops the scan), the stop-word test is a
substring test on the lowered line, and the cleaned line is returned
only when longer than two characters. -/
def tier2Line (line : List Char) : Option String :=
  if line = [] then none
  else if mostlyNumericT line then none
  else if phoneSearchT line then none
  else if urlSearchT line then none
  else if emailSearchT line then none
  else if addressSearchT line then none
  else if zipSearchT line then none
  else if storeSearchT line then none
  else if skipWords.any (fun w => infixLit w (line.map lowC)) then none
  else if decide (3 < line.length) && hasAlphaT line then
    if decide (2 < (tier2Clean line).length) then some (String.mk (tier2Clean line)) else none
  else none

/-- Tier 2 of `extract_vendor` (source lines 517-577): scan the first
ten body lines, returning the first line whose per-line outcome accepts. -/
def tier2Go : List (List Char) → Option String
  | [] => none
  | l :: rest =>
    match tier2Line (pyStrip l) with
    | some v => some v
    | none => tier2Go rest

/-- Python truthiness of an optional string (`if logo_text:`): false for
`None` and for the empty string. -/
def optTruthy : Option String → Bool
  | none => false
  | some s => s ≠ ""

/-- Model of `extract_receipt.extract_vendor` (lines 391-577). -/
def extract_vendor (text : String) (logo_text : Option String) : Option String :=
  let tier1 := if optTruthy logo_text then vendorFromLogo (logo_text.getD "") else none
  match tier1 with
  | some v => some v
  | none => tier2Go ((splitOnChar '\n' text.toList).take 10)

/-! ## The batch orchestrator (`process_receipts.py`)

Filesystem state is modelled as the list of file names in the one
directory being processed; `Path.exists` is membership, and a rename
replaces the source name by the target name. The actual I/O (OCR,
rasterization, the rename call) are the external collaborators; the
acquired OCR text and logo text are parameters. -/

/-- Index of the last dot of a name, if any. -/
def lastDotIdx (n : List Char) : Option Nat :=
  match (n.reverse.findIdx? (fun c => c = '.')) with
  | some r => some (n.length - 1 - r)
  | none => none

/-- `PurePath(name).suffix`: from the last dot, provided that dot is
neither the first nor the last character. -/
def pathSuffix (s : String) : String :=
  let n := s.toList
  match lastDotIdx n with
  | some i => if 0 < i && i + 1 < n.length then String.mk (n.drop i) else ""
  | none => ""

/-- `PurePath(name).stem`: the name minus its suffix. -/
def pathStem (s : String) : String :=
  let n := s.toList
  match lastDotIdx n with
  | some i => if 0 < i && i + 1 < n.length then String.mk (n.take i) else s
  | none => s

/-- Exponent tail of a float literal. -/
def floatExpOk : List Char → Bool
  | [] => true
  | c :: r =>
    if lowC c = 'e' then
      let r1 := match r with
        | s :: rr => if s = '+' || s = '-' then rr else r
        | [] => r
      let (ds, r2) := spanP isDig r1
      !ds.isEmpty && r2.isEmpty
    else false

/-- Model of CPython `float(s)` acceptance on an already-stripped ASCII
string: optional sign, then `inf`/`infinity`/`nan` (case-insensitive) or
a decimal literal with at least one mantissa digit and an optional
exponent. (CPython additionally allows single underscores between
digits; no caller in this development produces one.) -/
def pyFloatLit (cs : List Char) : Bool :=
  let r0 := match cs with
    | c :: r => if c = '+' || c = '-' then r else cs
    | [] => cs
  if matchCI "infinity".toList r0 = some [] || matchCI "inf".toList r0 = some [] ||
      matchCI "nan".toList r0 = some [] then true
  else
    let (ip, r1) := spanP isDig r0
    match r1 with
    | '.' :: rr =>
      let (fp, r2) := spanP isDig rr
      (!ip.isEmpty || !fp.isEmpty) && floatExpOk r2
    | _ => !ip.isEmpty && floatExpOk r1

/-- Model of `process_receipts.format_amount_for_filename` (lines 68-94). -/
def format_amount_for_filename (amount : Option String) : String :=
  if !optTruthy amount then "unknown_amount"
  else
    let f1 := pyStrip ((amount.getD "").toList.filter (fun c => c ≠ '$'))
    let f2 := f1.filter (fun c => c ≠ ',')
    if pyFloatLit f2 then String.mk ('$' :: f2) else "unknown_amount"

/-- Model of `process_receipts.generate_new_filename` (lines 197-224);
the file path enters only through its extension, so the parameter is the
file's name. -/
def generate_new_filename (name : String) (vendor date amount : Option String) : String :=
  let ext := pathSuffix name
  let vendor_part := if optTruthy vendor then sanitize_filename (vendor.getD "") else "unknown_vendor"
  let date_part := if optTruthy date then sanitize_filename (date.getD "") else "unknown_date"
  let amount_part := format_amount_for_filename amount
  vendor_part ++ " " ++ date_part ++ " " ++ amount_part ++ ext

/-- The collision loop of `rename_file_with_info` (lines 246-253):
while the candidate exists, build `f"{base_name}_{counter}{new_path.suffix}"`
from the current candidate's suffix and try again. The source loop is
unbounded; `state.length + 1` distinct candidates cannot all be in
`state`, so this fuel never runs out at the call site. -/
def collisionGo (state : List String) (base : String) : Nat → Nat → String → String
  | 0, _, cur => cur
  | fuel + 1, counter, cur =>
    if cur ∈ state then
      collisionGo state base fuel (counter + 1) (base ++ "_" ++ Nat.repr counter ++ pathSuffix cur)
    else cur

/-- Model of `process_receipts.rename_file_with_info` (lines 227-265):
returns (success, final target name, directory state afterwards). The
physical rename is the external call; its failure branch (line 263) is
an I/O failure outside the model, so the model's rename succeeds. -/
def rename_file_with_info (state : List String) (name : String)
    (vendor date amount : Option String) (dry_run : Bool) :
    Bool × String × List String :=
  let new_filename := generate_new_filename name vendor date amount
  let final :=
    if new_filename ∈ state ∧ new_filename ≠ name then
      collisionGo state (pathStem new_filename) (state.length + 1) 1 new_filename
    else new_filename
  if dry_run then (true, final, state)
  else (true, final, state.erase name ++ [final])

/-- The extraction record of `process_receipt_file`. -/
structure ExtractResult where
  vendor : Option String
  date : Option String
  amount : Option String
  success : Bool
deriving Repr, DecidableEq

/-- Model of `process_receipts.process_receipt_file` (lines 139-194)
applied to the acquired OCR text and logo text. The `except` branch
(lines 187-194, `success: False`) is reachable only through an exception
of the external OCR/rasterizer collaborators; with the text already
acquired, extraction is pure and always reports `success: True`. -/
def process_receipt_file (text : String) (logo_text : Option String)
    (vendor_name : Option String) : ExtractResult :=
  { vendor := if optTruthy vendor_name then vendor_name else extract_vendor text logo_text
    date := extract_date text
    amount := extract_amount text
    success := true }

/-- The per-file loop of `process_receipts.main` (lines 304-325) over
jobs `(file name, OCR text, logo text)`: returns
(success count, error count, target names in processing order). -/
def runBatchGo (vendor_name : String) (dry_run : Bool) :
    List (String × String × Option String) → List String → Nat × Nat × List String
  | [], _ => (0, 0, [])
  | (name, text, logo) :: jobs, state =>
    let r := process_receipt_file text logo (some vendor_name)
    if r.success then
      let (ok, newName, state2) := rename_file_with_info state name r.vendor r.date r.amount dry_run
      let (s, e, ns) := runBatchGo vendor_name dry_run jobs state2
      if ok then (s + 1, e, newName :: ns) else (s, e + 1, ns)
    else
      let (s, e, ns) := runBatchGo vendor_name dry_run jobs state
      (s, e + 1, ns)

/-- The batch orchestrator on a directory holding exactly the job files
(the sorted enumeration of `get_supported_image_files` is the job order). -/
def runBatch (jobs : List (String × String × Option String)) (vendor_name : String)
    (dry_run : Bool) : Nat × Nat × List String :=
  runBatchGo vendor_name dry_run jobs (jobs.map (fun j => j.1))

/-! ## Predicates used by the theorems -/

/-- Well-formedness of a `collapseUnders` output: no whitespace and no
two adjacent underscores. -/
def collapseNF : List Char → Bool
  | [] => true
  | [c] => !isPyWS c
  | c :: d :: cs => !isPyWS c && !(c = '_' && d = '_') && collapseNF (d :: cs)

/-- Does the list end in an underscore or a dot? -/
def endsUD (t : List Char) : Bool :=
  match t.getLast? with
  | some c => isUD c
  | none => false

/-! ## Helper lemmas about the scanning primitives -/

theorem takeWhile_append_stop {p : Char → Bool} {l r : List Char} {d : Char}
    (hl : ∀ c ∈ l, p c = true) (hd : p d = false) :
    (l ++ d :: r).takeWhile p = l := by
  induction l with
  | nil => simp [List.takeWhile_cons, hd]
  | cons a as ih =>
    have ha : p a = true := hl a (List.mem_cons_self a as)
    have ih2 := ih (fun c hc => hl c (List.mem_cons_of_mem a hc))
    simp [List.takeWhile_cons, ha, ih2]

theorem dropWhile_append_stop {p : Char → Bool} {l r : List Char} {d : Char}
    (hl : ∀ c ∈ l, p c = true) (hd : p d = false) :
    (l ++ d :: r).dropWhile p = d :: r := by
  induction l with
  | nil => simp [List.dropWhile_cons, hd]
  | cons a as ih =>
    have ha : p a = true := hl a (List.mem_cons_self a as)
    have ih2 := ih (fun c hc => hl c (List.mem_cons_of_mem a hc))
    simp [List.dropWhile_cons, ha, ih2]

theorem takeWhile_ne_nil_head {p : Char → Bool} {l : List Char}
    (h : l.takeWhile p ≠ []) : ∃ c l', l = c :: l' ∧ p c = true := by
  cases l with
  | nil => simp at h
  | cons c l' =>
    rw [List.takeWhile_cons] at h
    by_cases hc : p c = true
    · exact ⟨c, l', rfl, hc⟩
    · rw [if_neg (by simp [hc])] at h
      exact absurd rfl h

theorem isDig_ne_comma {c : Char} (h : isDig c = true) : c ≠ ',' := by
  intro hc
  subst hc
  simp [isDig] at h

theorem isDig_not_ws {c : Char} (h : isDig c = true) : isPyWS c = false := by
  by_contra hws
  simp only [Bool.not_eq_false] at hws
  simp only [isPyWS, Bool.or_eq_true, decide_eq_true_eq] at hws
  rcases hws with ((((h1 | h1) | h1) | h1) | h1) | h1 <;> subst h1 <;> simp [isDig] at h

theorem upTo2Dig_spec (cs : List Char) :
    (∀ c ∈ (upTo2Dig cs).1, isDig c = true) ∧ (upTo2Dig cs).1.length ≤ 2 := by
  match cs with
  | [] => simp [upTo2Dig]
  | [a] =>
    by_cases h : isDig a = true <;> simp [upTo2Dig, h]
  | a :: b :: r =>
    by_cases ha : isDig a = true
    · by_cases hb : isDig b = true
      · refine ⟨?_, by simp [upTo2Dig, ha, hb]⟩
        intro c hc
        simp [upTo2Dig, ha, hb] at hc
        rcases hc with rfl | rfl <;> assumption
      · refine ⟨?_, by simp [upTo2Dig, ha, hb]⟩
        intro c hc
        simp [upTo2Dig, ha, hb] at hc
        subst hc; exact ha
    · simp [upTo2Dig, ha]

/-! ## Lemmas about the amount candidates (claims C3-C5) -/

theorem listAmtShape_digits {ds : List Char} (h0 : ds ≠ [])
    (hd : ∀ c ∈ ds, isDig c = true) : listAmtShape ds = true := by
  unfold listAmtShape
  rw [List.takeWhile_eq_self_iff.mpr hd, List.dropWhile_eq_nil_iff.mpr hd]
  simp [h0]

theorem listAmtShape_dot {ds fs : List Char} (h0 : ds ≠ [])
    (hd : ∀ c ∈ ds, isDig c = true) (hf : ∀ c ∈ fs, isDig c = true)
    (hlen : fs.length ≤ 2) : listAmtShape (ds ++ '.' :: fs) = true := by
  unfold listAmtShape
  rw [takeWhile_append_stop hd (by decide), dropWhile_append_stop hd (by decide)]
  simp only []
  rw [List.takeWhile_eq_self_iff.mpr hf, List.dropWhile_eq_nil_iff.mpr hf]
  simp [h0, hlen]

/-- Filtering the commas out of a comma-free list is the identity. -/
theorem filter_comma_of_digits {l : List Char} (h : ∀ c ∈ l, isDig c = true) :
    l.filter (fun c => c ≠ ',') = l :=
  List.filter_eq_self.mpr (fun c hc => by simpa using isDig_ne_comma (h c hc))

/-- Every group the pattern `\d+\.?\d{0,2}` produces, with commas
removed (it contains none), has the relaxed amount shape. -/
theorem amtGroup_shape {cs g r : List Char} (h : amtGroup cs = some (g, r)) :
    listAmtShape (g.filter (fun c => c ≠ ',')) = true := by
  unfold amtGroup at h
  split_ifs at h with hds
  have hall : ∀ c ∈ cs.takeWhile isDig, isDig c = true := fun c hc => List.mem_takeWhile_imp hc
  split at h
  next r2 heq =>
    injection h with h'
    injection h' with h1 h2
    subst h1
    have hu := upTo2Dig_spec r2
    rw [List.filter_append, filter_comma_of_digits hall]
    have hftail : ('.' :: (upTo2Dig r2).1).filter (fun c => c ≠ ',') = '.' :: (upTo2Dig r2).1 :=
      List.filter_eq_self.mpr (fun c hc => by
        rcases List.mem_cons.mp hc with rfl | hc2
        · simp
        · simpa using isDig_ne_comma (hu.1 c hc2))
    rw [hftail]
    exact listAmtShape_dot hds hall hu.1 hu.2
  next =>
    injection h with h'
    injection h' with h1 h2
    subst h1
    rw [filter_comma_of_digits hall]
    exact listAmtShape_digits hds hall

/-- Same for the family-C group `\d+[,\.]\d{0,2}` after comma removal. -/
theorem amtGroupComma_shape {cs g r : List Char} (h : amtGroupComma cs = some (g, r)) :
    listAmtShape (g.filter (fun c => c ≠ ',')) = true := by
  unfold amtGroupComma at h
  split_ifs at h with hds
  have hall : ∀ c ∈ cs.takeWhile isDig, isDig c = true := fun c hc => List.mem_takeWhile_imp hc
  split at h
  next c r2 heq =>
    split_ifs at h with hc
    injection h with h'
    injection h' with h1 h2
    subst h1
    have hu := upTo2Dig_spec r2
    rw [List.filter_append, filter_comma_of_digits hall]
    rcases Bool.or_eq_true _ _ |>.mp hc with hcomma | hdot
    · have hcomma' : c = ',' := by simpa using hcomma
      subst hcomma'
      have : (',' :: (upTo2Dig r2).1).filter (fun c => c ≠ ',') = (upTo2Dig r2).1 := by
        rw [List.filter_cons_of_neg (by decide)]
        exact filter_comma_of_digits hu.1
      rw [this]
      rcases hful : (upTo2Dig r2).1 with _ | ⟨f, fs⟩
      · simp only [List.append_nil]
        exact listAmtShape_digits hds hall
      · refine listAmtShape_digits (by simp) ?_
        intro x hx
        rcases List.mem_append.mp hx with hx | hx
        · exact hall x hx
        · exact hu.1 x (by rw [hful]; exact hx)
    · have hdot' : c = '.' := by simpa using hdot
      subst hdot'
      have hftail : ('.' :: (upTo2Dig r2).1).filter (fun c => c ≠ ',') = '.' :: (upTo2Dig r2).1 :=
        List.filter_eq_self.mpr (fun x hx => by
          rcases List.mem_cons.mp hx with rfl | hx2
          · simp
          · simpa using isDig_ne_comma (hu.1 x hx2))
      rw [hftail]
      exact listAmtShape_dot hds hall hu.1 hu.2
  next heq => exact absurd h (by simp)

/-- Family A reduces to the plain group after the keyword prefix. -/
theorem matchAmtA_group {cs g r : List Char} (h : matchAmtA cs = some (g, r)) :
    ∃ cs', amtGroup cs' = some (g, r) := by
  unfold matchAmtA at h
  split at h <;> first
    | exact ⟨_, h⟩
    | exact absurd h (by simp)

theorem matchAmtB_group {cs g r : List Char} (h : matchAmtB cs = some (g, r)) :
    ∃ cs', amtGroup cs' = some (g, r) := by
  unfold matchAmtB at h
  split at h
  next rr => exact ⟨_, h⟩
  next => exact absurd h (by simp)

theorem matchAmtC_group {cs g r : List Char} (h : matchAmtC cs = some (g, r)) :
    ∃ cs', amtGroupComma cs' = some (g, r) := by
  unfold matchAmtC at h
  split at h <;> first
    | exact ⟨_, h⟩
    | exact absurd h (by simp)

/-- Payload property transport through a `findall` scan. -/
theorem findAllGo_forall {α : Type} {m : List Char → Option (α × List Char)} {P : α → Prop}
    (hm : ∀ s a r, m s = some (a, r) → P a) :
    ∀ fuel s, ∀ a ∈ findAllGo m fuel s, P a := by
  intro fuel
  induction fuel with
  | zero => intro s a ha; simp [findAllGo] at ha
  | succ n ih =>
    intro s a ha
    cases s with
    | nil => simp [findAllGo] at ha
    | cons c cs =>
      cases hm2 : m (c :: cs) with
      | none =>
        simp only [findAllGo, hm2] at ha
        exact ih cs a ha
      | some pr =>
        obtain ⟨b, rest⟩ := pr
        simp only [findAllGo, hm2] at ha
        rcases List.mem_cons.mp ha with rfl | ha2
        · exact hm _ _ _ hm2
        · exact ih rest a ha2

/-- Every collected candidate string has the relaxed amount shape. -/
theorem amount_candidates_shape (text : String) :
    ∀ pr ∈ amount_candidates text, listAmtShape pr.2 = true := by
  intro pr hpr
  unfold amount_candidates at hpr
  simp only [List.mem_map, List.mem_append] at hpr
  obtain ⟨g, hg, rfl⟩ := hpr
  show listAmtShape (g.filter (fun c => c ≠ ',')) = true
  rcases hg with (hg | hg) | hg
  · refine findAllGo_forall (P := fun g => listAmtShape (g.filter (fun c => c ≠ ',')) = true)
      ?_ _ _ g hg
    intro s a r hm
    obtain ⟨cs', hcs'⟩ := matchAmtA_group hm
    exact amtGroup_shape hcs'
  · refine findAllGo_forall (P := fun g => listAmtShape (g.filter (fun c => c ≠ ',')) = true)
      ?_ _ _ g hg
    intro s a r hm
    obtain ⟨cs', hcs'⟩ := matchAmtB_group hm
    exact amtGroup_shape hcs'
  · refine findAllGo_forall (P := fun g => listAmtShape (g.filter (fun c => c ≠ ',')) = true)
      ?_ _ _ g hg
    intro s a r hm
    obtain ⟨cs', hcs'⟩ := matchAmtC_group hm
    exact amtGroupComma_shape hcs'

/-- Cross-shifting against the smaller scale decides the order of two
modelled doubles (values `m * 2^(-k)`). -/
theorem qval_lt_shift {m1 m2 : Nat} {k1 k2 : Int} (h : k1 ≤ k2) :
    qval (m1, k1) < qval (m2, k2) ↔ m1 * 2 ^ (k2 - k1).toNat < m2 := by
  unfold qval
  rw [← mul_lt_mul_right (zpow_pos (by norm_num : (0:ℚ) < 2) k2)]
  rw [mul_assoc, mul_assoc, ← zpow_add₀ (by norm_num : (2:ℚ) ≠ 0),
    ← zpow_add₀ (by norm_num : (2:ℚ) ≠ 0)]
  rw [neg_add_cancel, zpow_zero, mul_one]
  have ht : -k1 + k2 = ((k2 - k1).toNat : ℤ) := by
    rw [Int.toNat_of_nonneg (by omega)]
    omega
  rw [ht, zpow_natCast]
  exact_mod_cast Iff.rfl

/-- The mirror image of `qval_lt_shift` for the other scale order. -/
theorem qval_lt_shift' {m1 m2 : Nat} {k1 k2 : Int} (h : k2 ≤ k1) :
    qval (m1, k1) < qval (m2, k2) ↔ m1 < m2 * 2 ^ (k1 - k2).toNat := by
  unfold qval
  rw [← mul_lt_mul_right (zpow_pos (by norm_num : (0:ℚ) < 2) k1)]
  rw [mul_assoc, mul_assoc, ← zpow_add₀ (by norm_num : (2:ℚ) ≠ 0),
    ← zpow_add₀ (by norm_num : (2:ℚ) ≠ 0)]
  rw [neg_add_cancel, zpow_zero, mul_one]
  have ht : -k2 + k1 = ((k1 - k2).toNat : ℤ) := by
    rw [Int.toNat_of_nonneg (by omega)]
    omega
  rw [ht, zpow_natCast]
  exact_mod_cast Iff.rfl

/-- `dblLtB` on finite doubles is the rational order of their values. -/
theorem dblLtB_some_iff (m1 m2 : Nat) (k1 k2 : Int) :
    dblLtB (some (m1, k1)) (some (m2, k2)) = true ↔ qval (m1, k1) < qval (m2, k2) := by
  simp only [dblLtB]
  split_ifs with h
  · rw [decide_eq_true_eq, qval_lt_shift h]
  · rw [decide_eq_true_eq, qval_lt_shift' (by omega)]

theorem dblLtB_irrefl (a : Option (Nat × Int)) : dblLtB a a = false := by
  cases a with
  | none => rfl
  | some p =>
    obtain ⟨m, k⟩ := p
    cases hc : dblLtB (some (m, k)) (some (m, k))
    · rfl
    · rw [dblLtB_some_iff] at hc
      exact absurd hc (lt_irrefl _)

theorem dblLtB_trans {a b c : Option (Nat × Int)} (h1 : dblLtB a b = true)
    (h2 : dblLtB b c = true) : dblLtB a c = true := by
  cases a with
  | none => cases b <;> simp [dblLtB] at h1
  | some p =>
    cases c with
    | none => rfl
    | some r =>
      cases b with
      | none => cases h2
      | some q =>
        obtain ⟨m1, k1⟩ := p
        obtain ⟨m2, k2⟩ := q
        obtain ⟨m3, k3⟩ := r
        rw [dblLtB_some_iff] at h1 h2 ⊢
        exact lt_trans h1 h2

theorem dblLtB_cotrans {a b c : Option (Nat × Int)} (h : dblLtB a c = true) :
    dblLtB a b = true ∨ dblLtB b c = true := by
  cases a with
  | none => cases c <;> simp [dblLtB] at h
  | some p =>
    cases c with
    | none =>
      cases b with
      | none => exact Or.inl rfl
      | some q => exact Or.inr rfl
    | some r =>
      cases b with
      | none => exact Or.inl rfl
      | some q =>
        obtain ⟨m1, k1⟩ := p
        obtain ⟨m2, k2⟩ := q
        obtain ⟨m3, k3⟩ := r
        rw [dblLtB_some_iff] at h
        rcases lt_or_le (qval (m1, k1)) (qval (m2, k2)) with h2 | h2
        · exact Or.inl ((dblLtB_some_iff _ _ _ _).mpr h2)
        · exact Or.inr ((dblLtB_some_iff _ _ _ _).mpr (lt_of_le_of_lt h2 h))

/-- `pickMax` returns the seed or a list element (Python `max`). -/
theorem pickMax_mem : ∀ (xs : List (Nat × List Char)) (best : Nat × List Char),
    pickMax xs best = best ∨ pickMax xs best ∈ xs := by
  intro xs
  induction xs with
  | nil => intro best; exact Or.inl rfl
  | cons x t ih =>
    intro best
    rw [pickMax]
    rcases ih (if dblLtB (dblOfCents best.1) (dblOfCents x.1) then x else best) with h | h
    · rw [h]
      by_cases hc : dblLtB (dblOfCents best.1) (dblOfCents x.1) = true
      · rw [if_pos hc]; exact Or.inr (List.mem_cons_self x t)
      · rw [if_neg hc]; exact Or.inl rfl
    · exact Or.inr (List.mem_cons_of_mem x h)

/-- `pickMax` is never float-below the seed or any list element: its
key is a maximum of the rounded keys, the first such element
(Python `max` keeps the first maximum). -/
theorem pickMax_notLt : ∀ (xs : List (Nat × List Char)) (best : Nat × List Char),
    dblLtB (dblOfCents (pickMax xs best).1) (dblOfCents best.1) = false
    ∧ ∀ q ∈ xs, dblLtB (dblOfCents (pickMax xs best).1) (dblOfCents q.1) = false := by
  intro xs
  induction xs with
  | nil =>
    intro best
    exact ⟨dblLtB_irrefl _, by simp⟩
  | cons x t ih =>
    intro best
    rw [pickMax]
    by_cases hc : dblLtB (dblOfCents best.1) (dblOfCents x.1) = true
    · rw [if_pos hc]
      obtain ⟨h1, h2⟩ := ih x
      constructor
      · cases hr : dblLtB (dblOfCents (pickMax t x).1) (dblOfCents best.1)
        · rfl
        · have hx := dblLtB_trans hr hc
          rw [h1] at hx
          exact absurd hx (by decide)
      · intro q hq
        rcases List.mem_cons.mp hq with rfl | hq
        · exact h1
        · exact h2 q hq
    · have hcf : dblLtB (dblOfCents best.1) (dblOfCents x.1) = false := by
        cases hcc : dblLtB (dblOfCents best.1) (dblOfCents x.1)
        · rfl
        · exact absurd hcc hc
      rw [if_neg hc]
      obtain ⟨h1, h2⟩ := ih best
      refine ⟨h1, ?_⟩
      intro q hq
      rcases List.mem_cons.mp hq with rfl | hq
      · cases hr : dblLtB (dblOfCents (pickMax t best).1) (dblOfCents q.1)
        · rfl
        · rcases dblLtB_cotrans (b := dblOfCents best.1) hr with hA | hB
          · rw [h1] at hA
            exact absurd hA (by decide)
          · rw [hcf] at hB
            exact absurd hB (by decide)
      · exact h2 q hq

/-- A fallback-pattern match is a bare-currency (family B) match: the
digit after the dollar sign is not whitespace, so the `\s*` of family B
matches the empty string there. -/
theorem matchAmtFallback_imp_B {s : List Char} (h : (matchAmtFallback s).isSome) :
    (matchAmtB s).isSome := by
  unfold matchAmtFallback at h
  split at h
  next rr =>
    have hds : rr.takeWhile isDig ≠ [] := by
      intro hds
      unfold amtGroup at h
      rw [if_pos hds] at h
      simp at h
    obtain ⟨c0, rr', rfl, hc0⟩ := takeWhile_ne_nil_head hds
    simp only [matchAmtB]
    have hdw : (c0 :: rr').dropWhile isPyWS = c0 :: rr' := by
      rw [List.dropWhile_cons, isDig_not_ws hc0]
      simp
    rw [hdw]
    exact h
  next => simp at h

/-- When the stronger matcher finds nothing anywhere, neither does the
weaker one (same fuel, same start). -/
theorem findAllGo_empty_mono {α β : Type} {m1 : List Char → Option (α × List Char)}
    {m2 : List Char → Option (β × List Char)}
    (hp : ∀ s, (m2 s).isSome → (m1 s).isSome) :
    ∀ fuel s, findAllGo m1 fuel s = [] → findAllGo m2 fuel s = [] := by
  intro fuel
  induction fuel with
  | zero => intro s _; rfl
  | succ n ih =>
    intro s h1
    cases s with
    | nil => rfl
    | cons c cs =>
      cases hm1 : m1 (c :: cs) with
      | some pr =>
        obtain ⟨a, rest⟩ := pr
        rw [findAllGo, hm1] at h1
        exact absurd h1 (List.cons_ne_nil a _)
      | none =>
        simp only [findAllGo, hm1] at h1
        cases hm2 : m2 (c :: cs) with
        | some pr =>
          exact absurd (hp _ (by rw [hm2]; rfl)) (by rw [hm1]; simp)
        | none =>
          simp only [findAllGo, hm2]
          exact ih cs h1

/-- A fallback-pattern match somewhere implies a primary candidate: the
claimed situation of the spec's fallback path cannot arise. -/
theorem fallback_imp_candidates {text : String}
    (h : findAll matchAmtFallback text.toList ≠ []) : amount_candidates text ≠ [] := by
  intro hc
  unfold amount_candidates at hc
  rw [List.map_eq_nil_iff] at hc
  have hB : findAll matchAmtB text.toList = [] := by
    rcases List.append_eq_nil.mp hc with ⟨h1, h2⟩
    exact (List.append_eq_nil.mp h1).2
  exact h (findAllGo_empty_mono (fun s hs => matchAmtFallback_imp_B hs) _ _ hB)

set_option maxHeartbeats 1600000 in
set_option maxRecDepth 1024 in
/-- Claim C3 counterexample: both sixteen-digit amounts round to the
same binary64 value (2^53), so Python's `max` keeps the first candidate
and `extract_amount` returns "$9007199254740992" — not the numerically
largest candidate: the candidate list also holds "9007199254740993"
with the strictly larger exact value. -/
theorem extract_amount_float_tie_cex :
    extract_amount "$9007199254740992 $9007199254740993" = some "$9007199254740992"
    ∧ amount_candidates "$9007199254740992 $9007199254740993" =
        [(900719925474099200, ("9007199254740992").toList),
         (900719925474099300, ("9007199254740993").toList)]
    ∧ dblOfCents 900719925474099200 = some (4503599627370496, -1)
    ∧ dblOfCents 900719925474099300 = some (4503599627370496, -1) :=
  ⟨by decide, by decide, by decide, by decide⟩

/-- Claim C3 (amended): whenever the three primary pattern families
produce at least one candidate, `extract_amount` returns a dollar sign
followed by the comma-stripped matched string of the first candidate
whose `float` key is maximal — Python compares the binary64 roundings
of the candidate values, so on a float tie the earlier candidate wins
even when a later one is numerically larger; in particular, on
"Subtotal $10.00 Tax $1.00 Total $11.00" it returns "$11.00". -/
theorem extract_amount_returns_float_largest :
    (∀ text : String, amount_candidates text ≠ [] →
      ∃ c, c ∈ amount_candidates text ∧
        extract_amount text = some (String.mk ('$' :: c.2)) ∧
        ∀ q ∈ amount_candidates text,
          dblLtB (dblOfCents c.1) (dblOfCents q.1) = false)
    ∧ extract_amount "Subtotal $10.00 Tax $1.00 Total $11.00" = some "$11.00" := by
  constructor
  · intro text hne
    cases hc : amount_candidates text with
    | nil => exact absurd hc hne
    | cons a rest =>
      have hx : extract_amount text = some (String.mk ('$' :: (pickMax rest a).2)) := by
        unfold extract_amount
        rw [hc]
      refine ⟨pickMax rest a, ?_, hx, ?_⟩
      · rcases pickMax_mem rest a with h | h
        · rw [h]; exact List.mem_cons_self a rest
        · exact List.mem_cons_of_mem a h
      · intro q hq
        obtain ⟨h1, h2⟩ := pickMax_notLt rest a
        rcases List.mem_cons.mp hq with rfl | hq
        · exact h1
        · exact h2 q hq
  · decide

/-- Claim C5 counterexample: on the text "$5." the bare-currency pattern
captures the group "5." (the dot matches `\.?`, zero digits follow), so
`extract_amount` returns "$5.", which the spec's shape regex
`^\$\d+(\.\d{1,2})?$` rejects. -/
theorem extract_amount_shape_cex :
    extract_amount "$5." = some "$5." ∧ amountShapeSpec "$5." = false := by
  constructor
  · decide
  · decide

/-- Claim C5 (amended): every non-`None` result of `extract_amount`
matches the relaxed regex `^\$\d+(\.\d{0,2})?$` — a dollar sign, a
digit run, and optionally a dot followed by at most two digits. -/
theorem extract_amount_shape_relaxed :
    ∀ (text : String) (r : String), extract_amount text = some r →
      amountShapeRelaxed r = true := by
  intro text r h
  unfold extract_amount at h
  split at h
  next a rest heq =>
    injection h with h'
    subst h'
    show amountShapeRelaxed (String.mk ('$' :: (pickMax rest a).2)) = true
    have hmem : pickMax rest a ∈ amount_candidates text := by
      rw [heq]
      rcases pickMax_mem rest a with h2 | h2
      · rw [h2]; exact List.mem_cons_self a rest
      · exact List.mem_cons_of_mem a h2
    have hshape := amount_candidates_shape text _ hmem
    unfold amountShapeRelaxed
    have hlist : (String.mk ('$' :: (pickMax rest a).2)).toList = '$' :: (pickMax rest a).2 := rfl
    rw [hlist]
    exact hshape
  next heq =>
    exfalso
    revert h
    split
    next hf => simp
    next m rest2 hf =>
      intro _
      exact fallback_imp_candidates (by rw [hf]; exact List.cons_ne_nil m rest2) heq

/-- Witness for claim C5 at a concrete extraction. -/
theorem extract_amount_shape_relaxed_witness : amountShapeRelaxed "$11.00" = true :=
  extract_amount_shape_relaxed "Subtotal $10.00 Tax $1.00 Total $11.00" "$11.00" (by decide)

/-! ## The date extractor theorems (claims C1, C2) -/

/-- Claim C1 (code-bug evidence): the supported shape "DD Month YYYY"
does not survive the round trip. Pattern 4 matches the whole text, all
four month-first `strptime` hypotheses fail, and the final one (source
line 330) is not wrapped in `try/except`, so its ValueError escapes and
`extract_date` returns `None` — even though the day-first hypothesis of
the unreachable block (lines 333-340) parses the token. The shape
"Month DD, YYYY" round-trips; the shape "YYYY/MM/DD" is also broken,
because pattern 1 fires first on the token "23/12/15" inside
"2023/12/15" and yields "2015-12-23". -/
theorem extract_date_day_first_shape_bug :
    extract_date "15 December 2023" = none
    ∧ strpDayFirst monthsFull ("15 December 2023").toList = some (2023, 12, 15)
    ∧ extract_date "December 15, 2023" = some "2023-12-15"
    ∧ extract_date "2023/12/15" = some "2015-12-23" := by
  refine ⟨by decide, by decide, by decide, by decide⟩

/-- Claim C2 counterexample: on this text the highest-priority pattern
has the first match "99/99/9999", which fails every parse hypothesis,
yet `extract_date` does not return `None`: the `continue` of line 347
moves on to the lower-priority patterns, and pattern 3 parses
"December 15, 2023". -/
theorem extract_date_fallback_cex :
    firstMatch matchD1 ("99/99/9999 on December 15, 2023").toList =
      some ("99/99/9999").toList
    ∧ parse_date_token ("99/99/9999").toList = none
    ∧ extract_date "99/99/9999 on December 15, 2023" = some "2023-12-15" := by
  refine ⟨by decide, by decide, by decide⟩

/-- The pattern loop returns `None` exactly when, for every pattern with
a match, the first match fails to parse. -/
theorem extract_date_go_none_iff :
    ∀ (ps : List (List Char → Option (List Char × List Char))) (t : List Char),
      extract_date_go ps t = none ↔
        ∀ p ∈ ps, ∀ tok, firstMatch p t = some tok → parse_date_token tok = none := by
  intro ps
  induction ps with
  | nil => intro t; simp [extract_date_go]
  | cons p ps ih =>
    intro t
    constructor
    · intro h q hq tok htok
      rcases List.mem_cons.mp hq with rfl | hq2
      · cases hp : parse_date_token tok with
        | some d =>
          exfalso
          simp only [extract_date_go, htok, hp] at h
          exact Option.noConfusion h
        | none => rfl
      · cases hm : firstMatch p t with
        | none =>
          simp only [extract_date_go, hm] at h
          exact (ih t).mp h q hq2 tok htok
        | some tok2 =>
          simp only [extract_date_go, hm] at h
          cases hp : parse_date_token tok2 with
          | some d =>
            simp only [hp] at h
            exact Option.noConfusion h
          | none =>
            simp only [hp] at h
            exact (ih t).mp h q hq2 tok htok
    · intro hall
      cases hm : firstMatch p t with
      | none =>
        simp only [extract_date_go, hm]
        exact (ih t).mpr (fun q hq => hall q (List.mem_cons_of_mem p hq))
      | some tok =>
        simp only [extract_date_go, hm, hall p (List.mem_cons_self p ps) tok hm]
        exact (ih t).mpr (fun q hq => hall q (List.mem_cons_of_mem p hq))

/-- Claim C2 (amended): when the highest-priority matching pattern's
first match fails all parse hypotheses, `extract_date` falls back to the
lower-priority patterns; it returns `None` exactly when every pattern's
first match (where one exists) fails to parse. -/
theorem extract_date_none_iff :
    ∀ text : String,
      extract_date text = none ↔
        ∀ p ∈ datePatterns, ∀ tok, firstMatch p text.toList = some tok →
          parse_date_token tok = none := by
  intro text
  exact extract_date_go_none_iff datePatterns text.toList

/-! ## The vendor extractor theorems (claims C6, C7) -/

/-- The tier-1 acceptance gate only passes lists longer than two. -/
theorem vendorGate_length {v : List Char} {s : String} (h : vendorGate v = some s) :
    2 < s.length := by
  unfold vendorGate at h
  split_ifs at h with hc
  injection h with h'
  subst h'
  exact of_decide_eq_true (Bool.and_eq_true _ _ |>.mp hc).1

/-- Tier 1 only returns a string after its explicit length/letter gate. -/
theorem vendorFromLogo_length {l v : String} (h : vendorFromLogo l = some v) :
    2 < v.length :=
  vendorGate_length h

set_option maxHeartbeats 1600000 in
/-- A tier-2 per-line acceptance only passes strings longer than two. -/
theorem tier2Line_length {line : List Char} {v : String} (h : tier2Line line = some v) :
    2 < v.length := by
  unfold tier2Line at h
  split_ifs at h
  injection h with h'
  subst h'
  show 2 < (tier2Clean line).length
  exact of_decide_eq_true (by assumption)

/-- Tier 2 only returns a string after its explicit length gate. -/
theorem tier2Go_length : ∀ (lines : List (List Char)) {v : String},
    tier2Go lines = some v → 2 < v.length := by
  intro lines
  induction lines with
  | nil => intro v h; exact absurd h (by simp [tier2Go])
  | cons l rest ih =>
    intro v h
    simp only [tier2Go] at h
    split at h
    next v' heq =>
      injection h with h'
      subst h'
      exact tier2Line_length heq
    next heq => exact ih h

/-- A non-empty line matching a hard-stop signal makes the tier-1 loop
body break. -/
theorem lineAction_stop_of_hard (line : List Char) (hne : line ≠ [])
    (hhs : isHardStopLine line = true) : lineAction line = LineAction.stop := by
  unfold isHardStopLine at hhs
  cases h1 : phoneSearchT line
  · cases h2 : urlSearchT line
    · cases h3 : emailSearchT line
      · cases h4 : addressSearchT line
        · cases h5 : zipSearchT line
          · cases h6 : storeSearchT line
            · rw [h1, h2, h3, h4, h5, h6] at hhs
              exact absurd hhs (by simp)
            · simp [lineAction, hne, h1, h2, h3, h4, h5, h6]
          · simp [lineAction, hne, h1, h2, h3, h4, h5]
        · simp [lineAction, hne, h1, h2, h3, h4]
      · simp [lineAction, hne, h1, h2, h3]
    · simp [lineAction, hne, h1, h2]
  · simp [lineAction, hne, h1]

/-- A non-empty line matching only a soft-skip signal makes the tier-1
loop body continue. -/
theorem lineAction_skip_of_soft (line : List Char) (hne : line ≠ [])
    (hhs : isHardStopLine line = false) (hss : isSoftSkipLine line = true) :
    lineAction line = LineAction.skip := by
  unfold isHardStopLine at hhs
  simp only [Bool.or_eq_false_iff] at hhs
  obtain ⟨⟨⟨⟨⟨h1, h2⟩, h3⟩, h4⟩, h5⟩, h6⟩ := hhs
  unfold isSoftSkipLine at hss
  cases h7 : dateTimeSearchT line
  · rw [h7] at hss
    simp only [Bool.false_or] at hss
    simp [lineAction, hne, h1, h2, h3, h4, h5, h6, h7, hss]
  · simp [lineAction, hne, h1, h2, h3, h4, h5, h6, h7]

set_option maxHeartbeats 1600000 in
set_option maxRecDepth 8000 in
/-- Claim C6 counterexample: on the body text "ab@cd 123 456" (no logo
text) tier 2 accepts the line — the email skip-rule regex needs a
dot-and-letters tail, which "ab@cd" lacks — and then the cleanup removes
the token "ab@cd" entirely, leaving "123 456": longer than two
characters, so it is returned, but it contains no letter. -/
theorem extract_vendor_letterless_cex :
    extract_vendor "ab@cd 123 456" none = some "123 456"
    ∧ hasAlphaT ("123 456").toList = false :=
  ⟨by decide, by decide⟩

/-- Claim C6 (amended): a non-`None` result of `extract_vendor` always
has length greater than two (both return sites check that); the
letter guarantee holds only for tier-1 results. -/
theorem extract_vendor_length_invariant :
    ∀ (text : String) (logo : Option String) (v : String),
      extract_vendor text logo = some v → 2 < v.length := by
  intro text logo v h
  simp only [extract_vendor] at h
  by_cases ht : optTruthy logo = true
  · rw [if_pos ht] at h
    cases hfl : vendorFromLogo (logo.getD "") with
    | some v' =>
      simp only [hfl, Option.some.injEq] at h
      subst h
      exact vendorFromLogo_length hfl
    | none =>
      simp only [hfl] at h
      exact tier2Go_length _ h
  · rw [if_neg ht] at h
    exact tier2Go_length _ h

set_option maxHeartbeats 1600000 in
set_option maxRecDepth 8000 in
/-- Witness for claim C6 at a concrete extraction. -/
theorem extract_vendor_length_witness : 2 < ("abcd" : String).length :=
  extract_vendor_length_invariant "abcd" none "abcd" (by decide)

set_option maxHeartbeats 1600000 in
set_option maxRecDepth 8000 in
/-- Claim C7: in the tier-1 accumulation loop, a line matching a
hard-stop signal stops the loop permanently (no later lines are
considered), a line matching only a soft-skip signal is skipped without
stopping, at most three lines ever accumulate, and on the logo text
"ACME CORP\n123 Main Street\n(555) 123-4567" the extractor returns
"ACME CORP". -/
theorem extract_vendor_tier1_accumulation :
    (∀ (l : List Char) (rest acc : List (List Char)), pyStrip l ≠ [] →
      isHardStopLine (pyStrip l) = true →
      vendorLinesGo (l :: rest) acc = acc)
    ∧ (∀ (l : List Char) (rest acc : List (List Char)), pyStrip l ≠ [] →
      isHardStopLine (pyStrip l) = false →
      isSoftSkipLine (pyStrip l) = true →
      vendorLinesGo (l :: rest) acc = vendorLinesGo rest acc)
    ∧ (∀ (lines : List (List Char)) (acc : List (List Char)), acc.length < 3 →
      (vendorLinesGo lines acc).length ≤ 3)
    ∧ extract_vendor "" (some "ACME CORP\n123 Main Street\n(555) 123-4567") =
        some "ACME CORP" := by
  refine ⟨?_, ?_, ?_, by decide⟩
  · intro l rest acc hne hhs
    simp only [vendorLinesGo, lineAction_stop_of_hard (pyStrip l) hne hhs]
  · intro l rest acc hne hhs hss
    simp only [vendorLinesGo, lineAction_skip_of_soft (pyStrip l) hne hhs hss]
  · intro lines
    induction lines with
    | nil =>
      intro acc h
      simpa [vendorLinesGo] using le_of_lt h
    | cons l rest ih =>
      intro acc hacc
      simp only [vendorLinesGo]
      cases lineAction (pyStrip l) with
      | stop => exact le_of_lt hacc
      | skip => exact ih _ hacc
      | add =>
        change (if (acc ++ [pyStrip l]).length ≥ 3 then acc ++ [pyStrip l]
          else vendorLinesGo rest (acc ++ [pyStrip l])).length ≤ 3
        split_ifs with hlen
        · simp only [List.length_append, List.length_cons, List.length_nil]
          omega
        · refine ih _ ?_
          simp only [List.length_append, List.length_cons, List.length_nil] at hlen ⊢
          omega

/-! ## Sanitizer lemmas and theorems (claim C8) -/

theorem collapseNF_tail {c : Char} {cs : List Char} (h : collapseNF (c :: cs) = true) :
    collapseNF cs = true := by
  cases cs with
  | nil => rfl
  | cons d cs2 =>
    simp only [collapseNF, Bool.and_eq_true] at h
    exact h.2

theorem collapseNF_head_ws {c : Char} {cs : List Char} (h : collapseNF (c :: cs) = true) :
    isPyWS c = false := by
  cases cs with
  | nil =>
    simp only [collapseNF] at h
    rwa [Bool.not_eq_true'] at h
  | cons d cs2 =>
    simp only [collapseNF, Bool.and_eq_true] at h
    have h1 := h.1.1
    rwa [Bool.not_eq_true'] at h1

theorem collapseNF_append_left {r : List Char} :
    ∀ {l : List Char}, collapseNF (l ++ r) = true → collapseNF l = true := by
  intro l
  induction l with
  | nil => intro _; rfl
  | cons c t ih =>
    intro h
    cases t with
    | nil =>
      cases r with
      | nil => exact h
      | cons e r2 =>
        simp only [collapseNF]
        simp only [List.cons_append, List.nil_append, collapseNF, Bool.and_eq_true] at h
        exact h.1.1
    | cons d t2 =>
      simp only [List.cons_append, collapseNF, Bool.and_eq_true] at h ⊢
      exact ⟨⟨h.1.1, h.1.2⟩, ih h.2⟩

theorem collapseNF_prefix {l' l : List Char} (hp : l' <+: l) (h : collapseNF l = true) :
    collapseNF l' = true := by
  obtain ⟨r, rfl⟩ := hp
  exact collapseNF_append_left h

theorem collapseNF_dropWhile (p : Char → Bool) :
    ∀ l : List Char, collapseNF l = true → collapseNF (l.dropWhile p) = true := by
  intro l
  induction l with
  | nil => exact fun h => h
  | cons c t ih =>
    intro h
    rw [List.dropWhile_cons]
    split_ifs with hc
    · exact ih (collapseNF_tail h)
    · exact h

theorem dropEndWhile_prefixOf (p : Char → Bool) : ∀ l : List Char, dropEndWhile p l <+: l := by
  intro l
  induction l with
  | nil => exact List.nil_prefix
  | cons c t ih =>
    simp only [dropEndWhile]
    split_ifs with hc
    · exact List.nil_prefix
    · exact List.cons_prefix_cons.mpr ⟨rfl, ih⟩

theorem dropEndWhile_cons (p : Char → Bool) (c : Char) (cs : List Char) :
    dropEndWhile p (c :: cs) =
      if (decide (dropEndWhile p cs = []) && p c) = true then []
      else c :: dropEndWhile p cs := rfl

theorem dropEndWhile_eq_self (p : Char → Bool) :
    ∀ l : List Char, (∀ x, l.getLast? = some x → p x = false) → dropEndWhile p l = l := by
  intro l
  induction l with
  | nil => exact fun _ => rfl
  | cons c t ih =>
    intro h
    cases t with
    | nil =>
      have hc : p c = false := h c (List.getLast?_singleton c)
      simp [dropEndWhile, hc]
    | cons d t2 =>
      have ht : dropEndWhile p (d :: t2) = d :: t2 :=
        ih (fun x hx => h x (by rwa [List.getLast?_cons_cons]))
      rw [dropEndWhile_cons, ht]
      simp

theorem head?_of_prefixOf {l' l : List Char} {c : Char} (hp : l' <+: l)
    (h : l'.head? = some c) : l.head? = some c := by
  obtain ⟨r, rfl⟩ := hp
  cases l' with
  | nil => exact absurd h (by simp)
  | cons d t => simpa using h

theorem head?_dropWhile_false (p : Char → Bool) :
    ∀ l : List Char, ∀ c, (l.dropWhile p).head? = some c → p c = false := by
  intro l
  induction l with
  | nil => intro c h; exact absurd h (by simp)
  | cons d t ih =>
    intro c h
    rw [List.dropWhile_cons] at h
    split_ifs at h with hd
    · exact ih c h
    · simp only [List.head?_cons, Option.some.injEq] at h
      subst h
      cases hc : p d
      · rfl
      · exact absurd hc hd

theorem all_of_sublist {p : Char → Bool} {l l' : List Char} (hs : List.Sublist l' l)
    (h : l.all p = true) : l'.all p = true := by
  rw [List.all_eq_true] at h ⊢
  exact fun x hx => h x (hs.subset hx)

theorem map_repl_all (l : List Char) :
    (l.map (fun c => if invalidFileChar c then '_' else c)).all
      (fun c => !invalidFileChar c) = true := by
  rw [List.all_eq_true]
  intro x hx
  rw [List.mem_map] at hx
  obtain ⟨a, _, rfl⟩ := hx
  by_cases h : invalidFileChar a = true
  · rw [if_pos h]; decide
  · rw [if_neg h]
    cases hc : invalidFileChar a
    · rfl
    · exact absurd hc h

theorem map_repl_id {l : List Char} (h : l.all (fun c => !invalidFileChar c) = true) :
    l.map (fun c => if invalidFileChar c then '_' else c) = l := by
  induction l with
  | nil => rfl
  | cons c cs ih =>
    simp only [List.all_cons, Bool.and_eq_true] at h
    have hc : invalidFileChar c = false := by
      have h1 := h.1
      rwa [Bool.not_eq_true'] at h1
    simp [hc, ih h.2]

theorem collapseAux_all (p : Char → Bool) (hp : p '_' = true) :
    ∀ (b : Bool) (l : List Char), l.all p = true → (collapseAux b l).all p = true := by
  intro b l
  induction l generalizing b with
  | nil => exact fun h => h
  | cons c cs ih =>
    intro h
    simp only [List.all_cons, Bool.and_eq_true] at h
    by_cases hw : isUW c = true
    · cases b with
      | false =>
        have e : collapseAux false (c :: cs) = '_' :: collapseAux true cs := by
          simp [collapseAux, hw]
        rw [e]
        simp only [List.all_cons, Bool.and_eq_true]
        exact ⟨hp, ih true h.2⟩
      | true =>
        have e : collapseAux true (c :: cs) = collapseAux true cs := by
          simp [collapseAux, hw]
        rw [e]
        exact ih true h.2
    · have hw0 : isUW c = false := by
        cases hc : isUW c
        · rfl
        · exact absurd hc hw
      have e : collapseAux b (c :: cs) = c :: collapseAux false cs := by
        cases b <;> simp [collapseAux, hw0]
      rw [e]
      simp only [List.all_cons, Bool.and_eq_true]
      exact ⟨h.1, ih false h.2⟩

theorem collapseNF_cons {c : Char} {X : List Char} (hws : isPyWS c = false)
    (hadj : c = '_' → ∀ d, X.head? = some d → d ≠ '_')
    (hX : collapseNF X = true) : collapseNF (c :: X) = true := by
  cases X with
  | nil => simp [collapseNF, hws]
  | cons e X2 =>
    simp only [collapseNF, Bool.and_eq_true]
    refine ⟨⟨by simp [hws], ?_⟩, hX⟩
    by_cases hc : c = '_'
    · have he : e ≠ '_' := hadj hc e List.head?_cons
      simp [hc, he]
    · simp [hc]

theorem collapseAux_nf :
    ∀ l : List Char,
      (collapseNF (collapseAux false l) = true ∧ collapseNF (collapseAux true l) = true) ∧
        (∀ d, (collapseAux true l).head? = some d → d ≠ '_') := by
  intro l
  induction l with
  | nil =>
    refine ⟨⟨rfl, rfl⟩, ?_⟩
    intro d hd
    simp [collapseAux] at hd
  | cons c cs ih =>
    obtain ⟨⟨ihf, iht⟩, ihh⟩ := ih
    by_cases hw : isUW c = true
    · have e1 : collapseAux false (c :: cs) = '_' :: collapseAux true cs := by
        simp [collapseAux, hw]
      have e2 : collapseAux true (c :: cs) = collapseAux true cs := by
        simp [collapseAux, hw]
      refine ⟨⟨?_, ?_⟩, ?_⟩
      · rw [e1]
        exact collapseNF_cons (by decide) (fun _ => ihh) iht
      · rw [e2]; exact iht
      · rw [e2]; exact ihh
    · have hw0 : isUW c = false := by
        cases hc : isUW c
        · rfl
        · exact absurd hc hw
      have hcw : isPyWS c = false := by
        simp only [isUW, Bool.or_eq_false_iff] at hw0
        exact hw0.2
      have hcu : c ≠ '_' := by
        simp only [isUW, Bool.or_eq_false_iff] at hw0
        intro hc
        rw [hc] at hw0
        exact absurd hw0.1 (by decide)
      have e1 : collapseAux false (c :: cs) = c :: collapseAux false cs := by
        simp [collapseAux, hw0]
      have e2 : collapseAux true (c :: cs) = c :: collapseAux false cs := by
        simp [collapseAux, hw0]
      refine ⟨⟨?_, ?_⟩, ?_⟩
      · rw [e1]
        exact collapseNF_cons hcw (fun hc => absurd hc hcu) ihf
      · rw [e2]
        exact collapseNF_cons hcw (fun hc => absurd hc hcu) ihf
      · rw [e2]
        intro d hd
        simp only [List.head?_cons, Option.some.injEq] at hd
        rw [← hd]
        exact hcu

theorem collapseAux_id :
    ∀ t : List Char, collapseNF t = true →
      (collapseAux false t = t ∧
        ((∀ d, t.head? = some d → d ≠ '_') → collapseAux true t = t)) := by
  intro t
  induction t with
  | nil => exact fun _ => ⟨rfl, fun _ => rfl⟩
  | cons c cs ih =>
    intro h
    have hws : isPyWS c = false := collapseNF_head_ws h
    obtain ⟨ihf, iht⟩ := ih (collapseNF_tail h)
    by_cases hu : c = '_'
    · subst hu
      have hhead : ∀ d, cs.head? = some d → d ≠ '_' := by
        intro d hd hdu
        cases cs with
        | nil => exact absurd hd (by simp)
        | cons e cs2 =>
          simp only [List.head?_cons, Option.some.injEq] at hd
          subst hdu
          subst hd
          simp only [collapseNF, Bool.and_eq_true] at h
          exact absurd h.1.2 (by decide)
      constructor
      · have hw : isUW '_' = true := by decide
        have e : collapseAux false ('_' :: cs) = '_' :: collapseAux true cs := by
          simp [collapseAux, hw]
        rw [e, iht hhead]
      · intro hhd
        exact absurd rfl (hhd '_' List.head?_cons)
    · have hcw : isUW c = false := by
        simp [isUW, hws, hu]
      have ef : collapseAux false (c :: cs) = c :: collapseAux false cs := by
        simp [collapseAux, hcw]
      have et : collapseAux true (c :: cs) = c :: collapseAux false cs := by
        simp [collapseAux, hcw]
      constructor
      · rw [ef, ihf]
      · intro _
        rw [et, ihf]

/-- The result of `sanitize_filename` has no invalid character, is in
collapse normal form, does not start with an underscore or a dot, is
non-empty, and is at most fifty characters long. -/
theorem sanitize_filename_props (s : String) :
    (sanitize_filename s).toList.all (fun c => !invalidFileChar c) = true
    ∧ collapseNF (sanitize_filename s).toList = true
    ∧ (∀ c, (sanitize_filename s).toList.head? = some c → isUD c = false)
    ∧ (sanitize_filename s).toList ≠ []
    ∧ (sanitize_filename s).toList.length ≤ 50 := by
  by_cases h0 : s = ""
  · subst h0
    refine ⟨by decide, by decide, ?_, by decide, by decide⟩
    intro c hc
    have he : (sanitize_filename "").toList.head? = some 'u' := by decide
    rw [he] at hc
    injection hc with hc
    subst hc
    decide
  · simp only [sanitize_filename]
    rw [if_neg h0]
    set s1 := s.toList.map (fun c => if invalidFileChar c then '_' else c) with hs1
    set s2 := collapseUnders s1 with hs2
    set s3 := stripUD s2 with hs3
    set s4 := if s3.length > 50 then s3.take 50 else s3 with hs4
    have h2all : s2.all (fun c => !invalidFileChar c) = true := by
      rw [hs2, hs1]
      exact collapseAux_all _ (by decide) false _ (map_repl_all s.toList)
    have h3sub : List.Sublist s3 s2 := by
      rw [hs3]
      exact List.Sublist.trans ((dropEndWhile_prefixOf isUD _).sublist) (List.dropWhile_sublist _)
    have h4sub : List.Sublist s4 s3 := by
      rw [hs4]
      split_ifs
      · exact (List.take_prefix _ _).sublist
      · exact List.Sublist.refl _
    have h4all : s4.all (fun c => !invalidFileChar c) = true :=
      all_of_sublist (h4sub.trans h3sub) h2all
    have h2nf : collapseNF s2 = true := by
      rw [hs2, hs1]
      exact ((collapseAux_nf s1).1).1
    have h3nf : collapseNF s3 = true := by
      rw [hs3]
      exact collapseNF_prefix (dropEndWhile_prefixOf isUD _) (collapseNF_dropWhile isUD _ h2nf)
    have h4nf : collapseNF s4 = true := by
      rw [hs4]
      split_ifs
      · exact collapseNF_prefix (List.take_prefix _ _) h3nf
      · exact h3nf
    have h3head : ∀ c, s3.head? = some c → isUD c = false := by
      intro c hc
      rw [hs3] at hc
      exact head?_dropWhile_false isUD _ c (head?_of_prefixOf (dropEndWhile_prefixOf isUD _) hc)
    have h4head : ∀ c, s4.head? = some c → isUD c = false := by
      intro c hc
      rw [hs4] at hc
      split_ifs at hc
      · exact h3head c (head?_of_prefixOf (List.take_prefix _ _) hc)
      · exact h3head c hc
    have h4len : s4.length ≤ 50 := by
      rw [hs4]
      split_ifs with hl
      · rw [List.length_take]
        exact min_le_left _ _
      · omega
    split_ifs with hnil
    · refine ⟨by decide, by decide, ?_, by decide, by decide⟩
      intro c hc
      have he : (("unknown" : String)).toList.head? = some 'u' := by decide
      rw [he] at hc
      injection hc with hc
      subst hc
      decide
    · exact ⟨h4all, h4nf, h4head, hnil, h4len⟩

set_option maxRecDepth 10000 in
/-- Claim C8 counterexample: a forty-nine-character run followed by
"_x" sanitizes to a string ending in an underscore (the truncation to
fifty characters happens after the strip), so a second application
strips that underscore and the function is not idempotent. -/
theorem sanitize_filename_idem_cex :
    sanitize_filename (String.mk (List.replicate 49 'a' ++ ['_', 'x']))
      = String.mk (List.replicate 49 'a' ++ ['_'])
    ∧ sanitize_filename (String.mk (List.replicate 49 'a' ++ ['_']))
      = String.mk (List.replicate 49 'a')
    ∧ sanitize_filename (sanitize_filename (String.mk (List.replicate 49 'a' ++ ['_', 'x'])))
      ≠ sanitize_filename (String.mk (List.replicate 49 'a' ++ ['_', 'x'])) :=
  ⟨by decide, by decide, by decide⟩

/-- Claim C8 (amended): a sanitized filename never contains an invalid
character and is at most fifty characters long, and `sanitize_filename`
is idempotent on every result that does not end in an underscore or a
dot (truncation can create such a trailing character, the one source of
non-idempotence). -/
theorem sanitize_filename_invariants :
    ∀ s : String,
      (sanitize_filename s).toList.all (fun c => !invalidFileChar c) = true
      ∧ (sanitize_filename s).length ≤ 50
      ∧ (endsUD (sanitize_filename s).toList = false →
          sanitize_filename (sanitize_filename s) = sanitize_filename s) := by
  intro s
  obtain ⟨hall, hnf, hhead, hne, hlen⟩ := sanitize_filename_props s
  refine ⟨hall, hlen, ?_⟩
  intro hend
  set t := sanitize_filename s with ht
  have h0 : t ≠ "" := by
    intro h
    rw [h] at hne
    exact hne rfl
  simp only [sanitize_filename]
  rw [if_neg h0]
  have e1 : t.toList.map (fun c => if invalidFileChar c then '_' else c) = t.toList :=
    map_repl_id hall
  have e2 : collapseUnders t.toList = t.toList := (collapseAux_id t.toList hnf).1
  have e3 : stripUD t.toList = t.toList := by
    have hdw : t.toList.dropWhile isUD = t.toList := by
      cases hl : t.toList with
      | nil => rfl
      | cons c cs =>
        have hc := hhead c (by rw [hl]; exact List.head?_cons)
        simp [List.dropWhile_cons, hc]
    have hde : dropEndWhile isUD t.toList = t.toList := by
      refine dropEndWhile_eq_self isUD _ ?_
      intro x hx
      have h := hend
      unfold endsUD at h
      rw [hx] at h
      exact h
    show dropEndWhile isUD (t.toList.dropWhile isUD) = t.toList
    rw [hdw, hde]
  rw [e1, e2, e3]
  have hlen' : ¬(t.toList.length > 50) := by
    have : t.toList.length ≤ 50 := hlen
    omega
  rw [if_neg hlen', if_neg hne]
  rfl


/-! ## Rename-collision and batch theorems (claims C9, C10) -/

theorem collisionGo_not_mem (state : List String) (base : String) (fuel counter : Nat)
    (cur : String) (h : cur ∉ state) :
    collisionGo state base fuel counter cur = cur := by
  cases fuel with
  | zero => rfl
  | succ k => simp [collisionGo, h]

theorem collisionGo_step (state : List String) (base : String) (fuel counter : Nat)
    (cur : String) (h : cur ∈ state) :
    collisionGo state base (fuel + 1) counter cur =
      collisionGo state base fuel (counter + 1)
        (base ++ "_" ++ Nat.repr counter ++ pathSuffix cur) := by
  simp [collisionGo, h]

/-- Claim C9: when three files generate the same target name `N` with
stem `B` and extension `X`, and the suffixed variants are fresh, the
first (in processing order) is renamed to the plain `N`, the second to
`B_1X` and the third to `B_2X`. -/
theorem rename_collision_suffixes
    (st : List String) (f1 f2 f3 : String) (v d a : Option String) (N B X : String)
    (hg1 : generate_new_filename f1 v d a = N)
    (hg2 : generate_new_filename f2 v d a = N)
    (hg3 : generate_new_filename f3 v d a = N)
    (hB : pathStem N = B)
    (hX : pathSuffix N = X)
    (hX1 : pathSuffix (B ++ "_" ++ "1" ++ X) = X)
    (hN0 : N ∉ st)
    (hNf2 : N ≠ f2)
    (hNf3 : N ≠ f3)
    (h1st : B ++ "_" ++ "1" ++ X ∉ st)
    (h1N : B ++ "_" ++ "1" ++ X ≠ N)
    (h2st : B ++ "_" ++ "2" ++ X ∉ st)
    (h2N : B ++ "_" ++ "2" ++ X ≠ N)
    (h21 : B ++ "_" ++ "2" ++ X ≠ B ++ "_" ++ "1" ++ X) :
    rename_file_with_info st f1 v d a false = (true, N, st.erase f1 ++ [N])
    ∧ rename_file_with_info (st.erase f1 ++ [N]) f2 v d a false =
        (true, B ++ "_" ++ "1" ++ X,
          (st.erase f1 ++ [N]).erase f2 ++ [B ++ "_" ++ "1" ++ X])
    ∧ rename_file_with_info
          ((st.erase f1 ++ [N]).erase f2 ++ [B ++ "_" ++ "1" ++ X]) f3 v d a false =
        (true, B ++ "_" ++ "2" ++ X,
          ((st.erase f1 ++ [N]).erase f2 ++ [B ++ "_" ++ "1" ++ X]).erase f3 ++
            [B ++ "_" ++ "2" ++ X]) := by
  have hr1 : Nat.repr 1 = "1" := rfl
  have hr2 : Nat.repr 2 = "2" := rfl
  have hmem1 : N ∈ st.erase f1 ++ [N] := List.mem_append_right _ (by simp)
  have hnm1 : (B ++ "_" ++ "1" ++ X) ∉ st.erase f1 ++ [N] := by
    intro h
    rcases List.mem_append.mp h with h | h
    · exact h1st (List.mem_of_mem_erase h)
    · exact h1N (by simpa using h)
  refine ⟨?_, ?_, ?_⟩
  · have hcond1 : ¬(N ∈ st ∧ N ≠ f1) := fun hc => hN0 hc.1
    simp only [rename_file_with_info, hg1]
    rw [if_neg hcond1]
    simp
  · have hcond : N ∈ st.erase f1 ++ [N] ∧ N ≠ f2 := ⟨hmem1, hNf2⟩
    simp only [rename_file_with_info, hg2]
    rw [if_pos hcond, hB]
    rw [collisionGo_step _ _ _ _ _ hmem1, hX, hr1]
    rw [collisionGo_not_mem _ _ _ _ _ hnm1]
    simp
  · have hmem2 : N ∈ (st.erase f1 ++ [N]).erase f2 ++ [B ++ "_" ++ "1" ++ X] :=
      List.mem_append_left _ ((List.mem_erase_of_ne hNf2).mpr hmem1)
    have hmem2b :
        (B ++ "_" ++ "1" ++ X) ∈ (st.erase f1 ++ [N]).erase f2 ++ [B ++ "_" ++ "1" ++ X] :=
      List.mem_append_right _ (by simp)
    have hnm2 :
        (B ++ "_" ++ "2" ++ X) ∉ (st.erase f1 ++ [N]).erase f2 ++ [B ++ "_" ++ "1" ++ X] := by
      intro h
      rcases List.mem_append.mp h with h | h
      · rcases List.mem_append.mp (List.mem_of_mem_erase h) with h | h
        · exact h2st (List.mem_of_mem_erase h)
        · exact h2N (by simpa using h)
      · exact h21 (by simpa using h)
    have hcond3 : N ∈ (st.erase f1 ++ [N]).erase f2 ++ [B ++ "_" ++ "1" ++ X] ∧ N ≠ f3 :=
      ⟨hmem2, hNf3⟩
    simp only [rename_file_with_info, hg3]
    rw [if_pos hcond3, hB]
    rw [collisionGo_step _ _ _ _ _ hmem2, hX, hr1]
    rw [show ((st.erase f1 ++ [N]).erase f2 ++ [B ++ "_" ++ "1" ++ X]).length
          = ((st.erase f1 ++ [N]).erase f2).length + 1 from by simp]
    rw [collisionGo_step _ _ _ _ _ hmem2b, hX1, hr2]
    rw [collisionGo_not_mem _ _ _ _ _ hnm2]
    simp

set_option maxHeartbeats 1600000 in
set_option maxRecDepth 8000 in
/-- Witness for claim C9: three receipts in one directory, a fixed
vendor and no extracted date or amount, processed in sorted order. -/
theorem rename_collision_suffixes_witness :
    rename_file_with_info ["r1.pdf", "r2.pdf", "r3.pdf"] "r1.pdf" (some "Vendor") none none false
      = (true, "Vendor unknown_date unknown_amount.pdf",
         ["r2.pdf", "r3.pdf", "Vendor unknown_date unknown_amount.pdf"])
    ∧ rename_file_with_info ["r2.pdf", "r3.pdf", "Vendor unknown_date unknown_amount.pdf"]
        "r2.pdf" (some "Vendor") none none false
      = (true, "Vendor unknown_date unknown_amount_1.pdf",
         ["r3.pdf", "Vendor unknown_date unknown_amount.pdf",
          "Vendor unknown_date unknown_amount_1.pdf"])
    ∧ rename_file_with_info
          ["r3.pdf", "Vendor unknown_date unknown_amount.pdf",
           "Vendor unknown_date unknown_amount_1.pdf"]
          "r3.pdf" (some "Vendor") none none false
      = (true, "Vendor unknown_date unknown_amount_2.pdf",
         ["Vendor unknown_date unknown_amount.pdf", "Vendor unknown_date unknown_amount_1.pdf",
          "Vendor unknown_date unknown_amount_2.pdf"]) :=
  rename_collision_suffixes ["r1.pdf", "r2.pdf", "r3.pdf"] "r1.pdf" "r2.pdf" "r3.pdf"
    (some "Vendor") none none
    "Vendor unknown_date unknown_amount.pdf" "Vendor unknown_date unknown_amount" ".pdf"
    (by decide) (by decide) (by decide) (by decide) (by decide) (by decide) (by decide)
    (by decide) (by decide) (by decide) (by decide) (by decide) (by decide) (by decide)

/-- Claim C10 counterexample: the empty-text file is tallied as a
success (success count one, error count zero) and its extraction record
carries `success := true` — the orchestrator does not record it as a
failure, non-fatal or otherwise. -/
theorem empty_doc_failure_cex :
    (runBatch [("scan.pdf", "", none)] "" true).1 = 1
    ∧ (runBatch [("scan.pdf", "", none)] "" true).2.1 = 0
    ∧ (process_receipt_file "" none none).success = true :=
  ⟨by decide, by decide, by decide⟩

/-- Claim C10 (amended): on an empty OCR text the three extractors all
return `None`, the extraction record is all-`None` with `success :=
true`, and the dry-run batch over that one file completes with the
would-be name "unknown_vendor unknown_date unknown_amount" plus the
original extension — tallied as a success, not as a failure. -/
theorem empty_doc_batch :
    extract_vendor "" none = none
    ∧ extract_date "" = none
    ∧ extract_amount "" = none
    ∧ process_receipt_file "" none none =
        { vendor := none, date := none, amount := none, success := true }
    ∧ runBatch [("scan.pdf", "", none)] "" true =
        (1, 0, ["unknown_vendor unknown_date unknown_amount.pdf"]) :=
  ⟨by decide, by decide, by decide, by decide, by decide⟩


end Receipt
